import Mathlib

/-
Shallow embedding of fs-nextra's recursive filesystem engine (src/util.js):
the copy engine (ncp / startCopy / copyDir / copyFile / copyLink), the
remove engine (rimraf / removeDir / rmkids / fixWinEPERM) together with the
`remove` wrapper modelled from the specification, the scan engine
(scanDeep), and the path / string helpers they rely on (isSrcKid,
isWritable, replaceEsc, JavaScript's String.prototype.replace
substitution semantics, and POSIX dirname / basename / join / resolve).

The filesystem is a flat association list from absolute path strings to
nodes, plus an error-injection table that models the platform returning a
chosen error for a chosen operation on a chosen path (used to reason about
the error-recovery paths).  All recursive engines are written as a single
step function structurally recursive on a fuel parameter, so that every
definition is executable and kernel-reducible; `none` means the fuel ran
out.  Concurrency (`Promise.all` fan-out over directory children) is
modelled as a sequential left-to-right fold: the set of visited paths and
the arguments each child call receives are identical, only completion
interleaving differs.
-/

deriving instance DecidableEq for Except

namespace FsNextra

/-- Platform error codes distinguished by the engine. -/
inductive ErrCode where
  | ENOENT
  | EPERM
  | EBUSY
  | ENOTEMPTY
  | EEXIST
  | ENOTDIR
  | EISDIR
  | EACCES
  | EINVAL
  | ELOOP
  | other (tag : Nat)
  deriving DecidableEq, Repr

/-- A JavaScript `Error` as the filesystem layer produces it: an error code
plus its diagnostic message.  Propagating an error "unchanged" means
returning the very same value. -/
structure JsError where
  code : ErrCode
  message : String
  deriving DecidableEq, Repr

/-- A value thrown by the engine: a filesystem `JsError`, a `throw null`
(as in fixWinEPERM and removeDir), or a plain `new Error(message)`. -/
inductive Thrown where
  | jsNull
  | jsError (e : JsError)
  | generic (message : String)
  deriving DecidableEq, Repr

/-- Kind of a filesystem node, as classified by `fs.Stats`. -/
inductive FKind where
  | file (content : String)
  | directory
  | symlink (target : String)
  | charDev
  | blockDev
  deriving DecidableEq, Repr

/-- A filesystem node: its kind and its permission bits. -/
structure FNode where
  kind : FKind
  mode : Nat
  deriving DecidableEq, Repr

def FNode.isDirectory (n : FNode) : Bool :=
  match n.kind with
  | .directory => true
  | _ => false

def FNode.isFile (n : FNode) : Bool :=
  match n.kind with
  | .file _ => true
  | _ => false

def FNode.isSymbolicLink (n : FNode) : Bool :=
  match n.kind with
  | .symlink _ => true
  | _ => false

def FNode.isCharacterDevice (n : FNode) : Bool :=
  match n.kind with
  | .charDev => true
  | _ => false

def FNode.isBlockDevice (n : FNode) : Bool :=
  match n.kind with
  | .blockDev => true
  | _ => false

/-- The filesystem operations on which an error can be injected. -/
inductive FsOp where
  | opLstat
  | opStat
  | opUnlink
  | opRmdir
  | opReaddir
  | opChmod
  | opMkdir
  | opSymlink
  | opReadlink
  | opCopyFile
  deriving DecidableEq, Repr

/-- The filesystem state: a flat map from absolute paths to nodes, plus an
injection table making a given operation on a given path fail with a given
error (modelling platform failures such as locking and permissions). -/
structure FS where
  entries : List (String × FNode)
  injected : List (FsOp × String × JsError)
  deriving DecidableEq, Repr

/- ---------------------------------------------------------------- -/
/- POSIX path strings: splitting on '/', normalization, dirname,
   basename, join, resolve.                                          -/
/- ---------------------------------------------------------------- -/

/-- Node's `path.isAbsolute` (POSIX): the path starts with a
separator. -/
def isAbsolute (p : String) : Bool :=
  match p.data with
  | c :: _ => c == '/'
  | [] => false

/-- Split a character list at every '/' (like JavaScript
`"a/b".split("/")`, so leading, trailing and doubled separators produce
empty components). -/
def splitSlash : List Char → List (List Char)
  | [] => [[]]
  | c :: t =>
    if c = '/' then [] :: splitSlash t
    else
      match splitSlash t with
      | [] => [[c]]
      | h :: r => (c :: h) :: r

/-- Interleave '/' between components. -/
def intercalateSlash : List (List Char) → List Char
  | [] => []
  | [c] => c
  | c :: r => c ++ '/' :: intercalateSlash r

/-- Normalization stack for path components: drops empty and "."
components and lets ".." pop the previous component (clamped at the
root, as POSIX resolution of absolute paths does). -/
def normCompsAux : List (List Char) → List (List Char) → List (List Char)
  | acc, [] => acc
  | acc, c :: t =>
    if c = [] ∨ c = ['.'] then normCompsAux acc t
    else if c = ['.', '.'] then normCompsAux acc.dropLast t
    else normCompsAux (acc ++ [c]) t

/-- Normalize an absolute path string: collapse separators, resolve "."
and "..", drop any trailing separator.  On absolute inputs this is what
Node's `path.resolve` and `path.normalize` return. -/
def normalizeAbs (p : String) : String :=
  String.mk ('/' :: intercalateSlash (normCompsAux [] (splitSlash p.data)))

/-- Node's `path.dirname` (POSIX), for paths without a trailing
separator — the only shape the engine ever passes it. -/
def dirname (p : String) : String :=
  let r := intercalateSlash ((splitSlash p.data).dropLast)
  if r = [] then (if isAbsolute p then "/" else ".") else String.mk r

/-- Node's `path.basename` (POSIX), for paths without a trailing
separator. -/
def basename (p : String) : String :=
  String.mk (((splitSlash p.data).getLast?).getD [])

/-- Node's `path.join` as the engine uses it: the left argument is always
an absolute path, so joining is concatenation followed by
normalization. -/
def jsJoin (a b : String) : String :=
  normalizeAbs (a ++ "/" ++ b)

/-- Node's `path.resolve(cwd, p)`: `p` itself when absolute, otherwise
`p` interpreted relative to `cwd`; normalized either way. -/
def jsResolveFrom (cwd p : String) : String :=
  if isAbsolute p then normalizeAbs p else normalizeAbs (cwd ++ "/" ++ p)

/-- Boolean path-dominance test: `underEqB p q` holds when `q` is `p`
itself or lies strictly inside the directory `p` (string prefix at a
component boundary). -/
def underEqB (p q : String) : Bool :=
  p == q || (p ++ "/").data.isPrefixOf q.data

/- ---------------------------------------------------------------- -/
/- Filesystem primitives.                                            -/
/- ---------------------------------------------------------------- -/

def lookupFS (fs : FS) (p : String) : Option FNode :=
  (fs.entries.find? (fun e => e.1 == p)).map (fun e => e.2)

def findInj (fs : FS) (op : FsOp) (p : String) : Option JsError :=
  (fs.injected.find? (fun e => e.1 == op && e.2.1 == p)).map (fun e => e.2.2)

def eraseFS (fs : FS) (p : String) : FS :=
  { entries := fs.entries.filter (fun e => e.1 != p), injected := fs.injected }

def insertFS (fs : FS) (p : String) (n : FNode) : FS :=
  { entries := fs.entries.filter (fun e => e.1 != p) ++ [(p, n)],
    injected := fs.injected }

/-- Restrict the map to the entries outside the subtree rooted at `p`
(the state a completed recursive removal of `p` leaves behind). -/
def prune (fs : FS) (p : String) : FS :=
  { entries := fs.entries.filter (fun e => !(underEqB p e.1)),
    injected := fs.injected }

/-- The name of `q` as a direct child of directory `p`, when it is one. -/
def childNameOf (p q : String) : Option String :=
  let pre := (if p = "/" then "/" else p ++ "/").data
  if pre.isPrefixOf q.data then
    let rest := q.data.drop pre.length
    if rest ≠ [] ∧ rest.contains '/' = false then some (String.mk rest) else none
  else none

def lstatE (fs : FS) (p : String) : Except JsError FNode :=
  match findInj fs .opLstat p with
  | some e => .error e
  | none =>
    match lookupFS fs p with
    | some n => .ok n
    | none => .error ⟨.ENOENT, "lstat"⟩

/-- Follow a chain of symbolic links (final component only) to the path
of the object a path designates; 40 hops before ELOOP, as on Linux. -/
def resolveLink (fs : FS) : Nat → String → Except JsError String
  | 0, _ => .error ⟨.ELOOP, "stat"⟩
  | n + 1, p =>
    match lookupFS fs p with
    | none => .error ⟨.ENOENT, "stat"⟩
    | some node =>
      match node.kind with
      | .symlink t =>
        resolveLink fs n (if isAbsolute t then normalizeAbs t else jsJoin (dirname p) t)
      | _ => .ok p

def statE (fs : FS) (p : String) : Except JsError FNode :=
  match findInj fs .opStat p with
  | some e => .error e
  | none =>
    match resolveLink fs 40 p with
    | .error e => .error e
    | .ok q =>
      match lookupFS fs q with
      | some n => .ok n
      | none => .error ⟨.ENOENT, "stat"⟩

def unlinkE (fs : FS) (p : String) : Except JsError FS :=
  match findInj fs .opUnlink p with
  | some e => .error e
  | none =>
    match lookupFS fs p with
    | none => .error ⟨.ENOENT, "unlink"⟩
    | some n =>
      if n.isDirectory then .error ⟨.EISDIR, "unlink"⟩
      else .ok (eraseFS fs p)

def hasChildFS (fs : FS) (p : String) : Bool :=
  fs.entries.any (fun e => (childNameOf p e.1).isSome)

def rmdirE (fs : FS) (p : String) : Except JsError FS :=
  match findInj fs .opRmdir p with
  | some e => .error e
  | none =>
    match lookupFS fs p with
    | none => .error ⟨.ENOENT, "rmdir"⟩
    | some n =>
      if n.isDirectory = false then .error ⟨.ENOTDIR, "rmdir"⟩
      else if hasChildFS fs p then .error ⟨.ENOTEMPTY, "rmdir"⟩
      else .ok (eraseFS fs p)

def readdirE (fs : FS) (p : String) : Except JsError (List String) :=
  match findInj fs .opReaddir p with
  | some e => .error e
  | none =>
    match lookupFS fs p with
    | none => .error ⟨.ENOENT, "scandir"⟩
    | some n =>
      if n.isDirectory then .ok (fs.entries.filterMap (fun e => childNameOf p e.1))
      else .error ⟨.ENOTDIR, "scandir"⟩

def chmodE (fs : FS) (p : String) (m : Nat) : Except JsError FS :=
  match findInj fs .opChmod p with
  | some e => .error e
  | none =>
    match lookupFS fs p with
    | none => .error ⟨.ENOENT, "chmod"⟩
    | some _ =>
      .ok { entries := fs.entries.map (fun e => if e.1 == p then (e.1, ⟨e.2.kind, m⟩) else e),
            injected := fs.injected }

/-- `fs.mkdir` (umask not modelled; the engine re-applies the mode with
an explicit chmod right after creating a directory anyway). -/
def mkdirE (fs : FS) (p : String) (m : Nat) : Except JsError FS :=
  match findInj fs .opMkdir p with
  | some e => .error e
  | none =>
    match lookupFS fs p with
    | some _ => .error ⟨.EEXIST, "mkdir"⟩
    | none =>
      match lookupFS fs (dirname p) with
      | some parent =>
        if parent.isDirectory then .ok (insertFS fs p ⟨.directory, m⟩)
        else .error ⟨.ENOTDIR, "mkdir"⟩
      | none => .error ⟨.ENOENT, "mkdir"⟩

/-- `fs.symlink target p`: creates a link at `p` with target text
`target`; the target need not exist. -/
def symlinkE (fs : FS) (target p : String) : Except JsError FS :=
  match findInj fs .opSymlink p with
  | some e => .error e
  | none =>
    match lookupFS fs p with
    | some _ => .error ⟨.EEXIST, "symlink"⟩
    | none =>
      match lookupFS fs (dirname p) with
      | some parent =>
        if parent.isDirectory then .ok (insertFS fs p ⟨.symlink target, 511⟩)
        else .error ⟨.ENOTDIR, "symlink"⟩
      | none => .error ⟨.ENOENT, "symlink"⟩

def readlinkE (fs : FS) (p : String) : Except JsError String :=
  match findInj fs .opReadlink p with
  | some e => .error e
  | none =>
    match lookupFS fs p with
    | none => .error ⟨.ENOENT, "readlink"⟩
    | some n =>
      match n.kind with
      | .symlink t => .ok t
      | _ => .error ⟨.EINVAL, "readlink"⟩

/-- `fs.copyFile src dst`: copies the bytes of the regular file at `src`
to `dst`, truncating or creating `dst` (devices are modelled as copyable
with empty content). -/
def copyFileRaw (fs : FS) (src dst : String) : Except JsError FS :=
  match findInj fs .opCopyFile dst with
  | some e => .error e
  | none =>
    match lookupFS fs src with
    | none => .error ⟨.ENOENT, "copyfile"⟩
    | some n =>
      match (lookupFS fs dst).map FNode.isDirectory with
      | some true => .error ⟨.EISDIR, "copyfile"⟩
      | _ =>
        match n.kind with
        | .file c => .ok (insertFS fs dst ⟨.file c, n.mode⟩)
        | .directory => .error ⟨.EISDIR, "copyfile"⟩
        | _ => .ok (insertFS fs dst ⟨.file "", n.mode⟩)

/- ---------------------------------------------------------------- -/
/- Well-formedness of a filesystem state.                            -/
/- ---------------------------------------------------------------- -/

/-- A valid path component: nonempty, no separator, not "." or "..". -/
def validName (c : List Char) : Bool :=
  !c.isEmpty && !(c.contains '/') && !(c == ['.']) && !(c == ['.', '.'])

/-- A normalized absolute path other than the root: "/" followed by
'/'-separated valid components. -/
def isNormalAbs (p : String) : Bool :=
  match p.data with
  | [] => false
  | c :: rest => c == '/' && !rest.isEmpty && (splitSlash rest).all validName

/-- Well-formed filesystem: distinct keys, a root directory, and every
non-root entry a normalized absolute path whose parent is a present
directory. -/
def wf (fs : FS) : Prop :=
  (fs.entries.map Prod.fst).Nodup ∧
  ((lookupFS fs "/").any FNode.isDirectory = true) ∧
  ∀ e ∈ fs.entries, e.1 = "/" ∨
    (isNormalAbs e.1 = true ∧ (lookupFS fs (dirname e.1)).any FNode.isDirectory = true)

instance wfDecidable (fs : FS) : Decidable (wf fs) := by
  unfold wf
  infer_instance

/-- No platform errors are being injected: the filesystem behaves
nominally. -/
def clean (fs : FS) : Prop := fs.injected = []

instance cleanDecidable (fs : FS) : Decidable (clean fs) := by
  unfold clean
  infer_instance

/- ---------------------------------------------------------------- -/
/- JavaScript String.prototype.replace substitution semantics.       -/
/- ---------------------------------------------------------------- -/

/-- ECMAScript GetSubstitution for a replacement string with no capture
groups: in the replacement, a doubled dollar yields one dollar, dollar
ampersand yields the matched text, dollar backquote the text before the
match, dollar quote the text after it; any other dollar sequence stays
literal. -/
def getSub (matched pre post : List Char) : List Char → List Char
  | [] => []
  | c :: t =>
    if c = '$' then
      match t with
      | [] => ['$']
      | d :: t' =>
        if d = '$' then '$' :: getSub matched pre post t'
        else if d = '&' then matched ++ getSub matched pre post t'
        else if d = Char.ofNat 96 then pre ++ getSub matched pre post t'
        else if d = Char.ofNat 39 then post ++ getSub matched pre post t'
        else '$' :: d :: getSub matched pre post t'
    else c :: getSub matched pre post t

/-- Scanner for `s.replace(pattern, replacement)` with a string pattern:
replace the first occurrence of `pat`, applying GetSubstitution to the
replacement; `pre` accumulates the part already scanned. -/
def jsReplaceFirstData (pat subst : List Char) : List Char → List Char → List Char
  | pre, [] => pre
  | pre, c :: t =>
    if pat.isPrefixOf (c :: t) then
      pre ++ getSub pat pre ((c :: t).drop pat.length) subst ++ (c :: t).drop pat.length
    else jsReplaceFirstData pat subst (pre ++ [c]) t

/-- JavaScript `s.replace(pat, subst)` for a nonempty string pattern. -/
def jsReplaceFirst (s pat subst : String) : String :=
  String.mk (jsReplaceFirstData pat.data subst.data [] s.data)

/-- Scanner for a global single-character regex replace,
`s.replace(/c/g, subst)`, applying GetSubstitution at each match. -/
def jsReplaceAllCharData (ch : Char) (subst : List Char) : List Char → List Char → List Char
  | _, [] => []
  | pre, c :: t =>
    if c = ch then getSub [c] pre t subst ++ jsReplaceAllCharData ch subst (pre ++ [c]) t
    else c :: jsReplaceAllCharData ch subst (pre ++ [c]) t

/- ---------------------------------------------------------------- -/
/- util.js string helpers.                                           -/
/- ---------------------------------------------------------------- -/

/-- util.js replaceEsc: `str.replace(/\x24/g, '\x24\x24')` — replaces
every dollar with the two-character replacement string dollar-dollar,
which GetSubstitution collapses to a single literal dollar. -/
def replaceEsc (str : String) : String :=
  String.mk (jsReplaceAllCharData '$' ("$$").data [] str.data)

/-- JavaScript `s.indexOf(pat) > -1`. -/
def containsSub (pat : List Char) : List Char → Bool
  | [] => pat.isEmpty
  | c :: t => pat.isPrefixOf (c :: t) || containsSub pat t

/-- Scanner for JavaScript `s.split(sep)` with a nonempty string
separator: left-to-right, non-overlapping matches; `skip` counts the
separator characters still to be consumed after a match. -/
def jsSplitAux (sep : List Char) : Nat → List Char → List Char → List (List Char)
  | _ + 1, acc, [] => [acc.reverse]
  | n + 1, acc, _ :: t => jsSplitAux sep n acc t
  | 0, acc, [] => [acc.reverse]
  | 0, acc, c :: t =>
    if sep.isPrefixOf (c :: t) then acc.reverse :: jsSplitAux sep (sep.length - 1) [] t
    else jsSplitAux sep 0 (c :: acc) t

/-- JavaScript `s.split(sep)` for a nonempty string separator. -/
def jsSplit (s sep : String) : List String :=
  (jsSplitAux sep.data 0 [] s.data).map String.mk

/-- util.js isSrcKid: the string-matching test deciding whether `dest0`
is taken to lie inside `src0`.  Both are first resolved against the
working directory; a thrown TypeError from indexing a missing split
result is caught and turned into `false`, exactly as the try/catch in
the source does. -/
def isSrcKid (cwd src0 dest0 : String) : Bool :=
  let src := jsResolveFrom cwd src0
  let dest := jsResolveFrom cwd dest0
  src != dest && containsSub src.data dest.data &&
    (match jsSplit dest (dirname src ++ "/") with
     | _ :: second :: _ => ((jsSplit second "/").headD "") == basename src
     | _ => false)

/-- util.js isWritable: lstat the path, mapping success to `false` and
failure to the test "the error code is ENOENT"; the promise always
resolves to a boolean, it never rejects. -/
def isWritable (fs : FS) (p : String) : Bool :=
  match lstatE fs p with
  | .ok _ => false
  | .error e => e.code == .ENOENT

/- ---------------------------------------------------------------- -/
/- Copy engine: ncp / startCopy / copyDir / copyFile / copyLink.     -/
/- ---------------------------------------------------------------- -/

/-- The options record after ncp has enriched it: the filter, the three
boolean policies, and the resolved roots.  `cwd` models process.cwd(),
which the source consults through path.resolve. -/
structure COpts where
  cwd : String
  filter : String → String → Bool
  overwrite : Bool
  errorOnExist : Bool
  preserveTimestamps : Bool
  dereference : Bool
  currentPath : String
  targetPath : String

/-- The caller-supplied options of ncp before normalization: an optional
filter and an optional overwrite (the source distinguishes an absent
`overwrite` from a false one). -/
structure UserOpts where
  filter : Option (String → String → Bool)
  overwrite : Option Bool
  errorOnExist : Bool
  preserveTimestamps : Bool
  dereference : Bool

def cyclicMessage : String :=
  "FS-NEXTRA: Copying a parent directory into a child will result in an infinite loop."

def unknownMessage : String :=
  "FS-NEXTRA: An Unknown error has occurred in startCopy."

/-- util.js copyFile (the engine's overwrite-policy leaf copy, not the
fs primitive): absent target — copy directly; existing target with
overwrite — unlink then copy; existing target, no overwrite, with
errorOnExist — throw "target already exists"; otherwise a silent no-op. -/
def copyFileU (fs : FS) (mySource target : String) (o : COpts) : FS × Option Thrown :=
  if isWritable fs target then
    match copyFileRaw fs mySource target with
    | .ok fs' => (fs', none)
    | .error e => (fs, some (.jsError e))
  else if o.overwrite then
    match unlinkE fs target with
    | .error e => (fs, some (.jsError e))
    | .ok fs1 =>
      match copyFileRaw fs1 mySource target with
      | .ok fs2 => (fs2, none)
      | .error e => (fs1, some (.jsError e))
  else if o.errorOnExist then (fs, some (.generic (target ++ " already exists")))
  else (fs, none)

/-- util.js copyLink: read the source link's target text, resolve it
against the working directory when dereferencing, then create the
destination link — or, when the destination exists, compare targets and
recreate only on mismatch.  Note: the target text is reused as-is; no
destination-relative rewrite is applied. -/
def copyLinkU (fs : FS) (mySource target : String) (o : COpts) : FS × Option Thrown :=
  match readlinkE fs mySource with
  | .error e => (fs, some (.jsError e))
  | .ok rp0 =>
    let resolvedPath := if o.dereference then jsResolveFrom o.cwd rp0 else rp0
    if isWritable fs target then
      match symlinkE fs resolvedPath target with
      | .ok fs' => (fs', none)
      | .error e => (fs, some (.jsError e))
    else
      match readlinkE fs target with
      | .error e => (fs, some (.jsError e))
      | .ok td0 =>
        let targetDest := if o.dereference then jsResolveFrom o.cwd td0 else td0
        if targetDest = resolvedPath then (fs, none)
        else
          match unlinkE fs target with
          | .error e => (fs, some (.jsError e))
          | .ok fs1 =>
            match symlinkE fs1 resolvedPath target with
            | .ok fs2 => (fs2, none)
            | .error e => (fs1, some (.jsError e))

/-- Call states of the recursive copy walk: a startCopy entry, the body
of copyDir after its stats are known, and the fold over a directory's
children (the source fans these out with Promise.all; the fold visits
them in readdir order with identical arguments). -/
inductive CopyCall where
  | start (fs : FS) (mySource : String)
  | dir (fs : FS) (mySource target : String) (stats : FNode)
  | children (fs : FS) (base : String) (items : List String)

/-- One fuel-indexed step function for the whole copy recursion
(startCopy and copyDir of util.js); `none` means the fuel ran out,
otherwise the final filesystem is paired with the thrown value if the
walk rejected. -/
def copyStep (o : COpts) : Nat → CopyCall → Option (FS × Option Thrown)
  | 0, _ => none
  | n + 1, .start fs mySource =>
    if o.filter mySource o.targetPath = false then some (fs, none)
    else
      match (if o.dereference then statE fs mySource else lstatE fs mySource) with
      | .error e => some (fs, some (.jsError e))
      | .ok stats =>
        let target := jsReplaceFirst mySource o.currentPath (replaceEsc o.targetPath)
        if stats.isDirectory then
          copyStep o n (.dir fs mySource target stats)
        else if stats.isFile || stats.isCharacterDevice || stats.isBlockDevice
            || stats.isSymbolicLink then
          let target2 :=
            match statE fs target with
            | .ok t => if t.isDirectory then jsJoin target (basename mySource) else target
            | .error _ => target
          if stats.isSymbolicLink then some (copyLinkU fs mySource target2 o)
          else some (copyFileU fs mySource target2 o)
        else some (fs, some (.generic unknownMessage))
  | n + 1, .dir fs mySource target stats =>
    if isSrcKid o.cwd mySource target then some (fs, some (.generic cyclicMessage))
    else
      match (if isWritable fs target then some (mkdirE fs target stats.mode) else none) with
      | some (.error e) => some (fs, some (.jsError e))
      | some (.ok fs1) =>
        match chmodE fs1 target stats.mode with
        | .error e => some (fs1, some (.jsError e))
        | .ok fs2 =>
          match readdirE fs2 mySource with
          | .error e => some (fs2, some (.jsError e))
          | .ok items => copyStep o n (.children fs2 mySource items)
      | none =>
        match readdirE fs mySource with
        | .error e => some (fs, some (.jsError e))
        | .ok items => copyStep o n (.children fs mySource items)
  | _ + 1, .children fs _ [] => some (fs, none)
  | n + 1, .children fs base (it :: rest) =>
    match copyStep o n (.start fs (jsJoin base it)) with
    | none => none
    | some (fs', some t) => some (fs', some t)
    | some (fs', none) => copyStep o n (.children fs' base rest)

/-- util.js startCopy, fuel-indexed. -/
def startCopy (o : COpts) (fuel : Nat) (fs : FS) (mySource : String) :
    Option (FS × Option Thrown) :=
  copyStep o fuel (.start fs mySource)

/-- util.js ncp: resolve both roots against the working directory, fill
the option defaults (always-true filter, overwrite on), and walk from
the resolved source root. -/
def ncp (cwd : String) (fuel : Nat) (fs : FS) (source dest : String) (u : UserOpts) :
    Option (FS × Option Thrown) :=
  let o : COpts :=
    { cwd := cwd
      currentPath := jsResolveFrom cwd source
      targetPath := jsResolveFrom cwd dest
      filter := match u.filter with | some f => f | none => fun _ _ => true
      overwrite := match u.overwrite with | some b => b | none => true
      errorOnExist := u.errorOnExist
      preserveTimestamps := u.preserveTimestamps
      dereference := u.dereference }
  startCopy o fuel fs o.currentPath

/-- The destination path startCopy computes for a visited source path:
`mySource.replace(options.currentPath, this.replaceEsc(options.targetPath))`. -/
def targetOf (o : COpts) (s : String) : String :=
  jsReplaceFirst s o.currentPath (replaceEsc o.targetPath)

/-- Every key of the map is the root or a normalized absolute path (a
consequence of well-formedness that the copy walk preserves). -/
def keysNormal (fs : FS) : Prop :=
  ∀ e ∈ fs.entries, e.1 = "/" ∨ isNormalAbs e.1 = true

/-- Sanity of the resolved copy roots: both are normalized absolute
paths, the destination root contains no dollar (so the buggy
replaceEsc has nothing to corrupt), neither root dominates the other,
and links are not dereferenced. -/
def saneC (o : COpts) : Prop :=
  isNormalAbs o.currentPath = true ∧ isNormalAbs o.targetPath = true ∧
  o.targetPath.data.contains '$' = false ∧
  underEqB o.currentPath o.targetPath = false ∧
  underEqB o.targetPath o.currentPath = false ∧
  o.dereference = false

/-- Shape of any destination path the copy walk started at `src` can
write to: the computed target of some visited source `s'` inside `src`
whose whole ancestor chain from `src` passed the filter — either the
target itself, or (when the walk found the target already existing as a
directory and `s'` was a non-directory source) the target extended by
the basename of `s'`. -/
def copyWrite (o : COpts) (fs0 : FS) (src q : String) : Prop :=
  ∃ s', underEqB src s' = true ∧ isNormalAbs s' = true ∧
    (∀ r, underEqB src r = true → underEqB r s' = true →
      o.filter r o.targetPath = true) ∧
    (q = targetOf o s' ∨
      (q = targetOf o s' ++ "/" ++ basename s' ∧
        ∃ n', lookupFS fs0 s' = some n' ∧ n'.isDirectory = false))

/-- Invariants the copy walk re-establishes after every completed call:
the error-injection table is untouched, keys stay normalized, and every
changed destination entry has the `copyWrite` shape. -/
def copyPost (o : COpts) (fs0 : FS) (src : String) (fs fs' : FS) : Prop :=
  fs'.injected = fs.injected ∧ keysNormal fs' ∧
  ∀ q, lookupFS fs' q ≠ lookupFS fs q → copyWrite o fs0 src q

instance saneCDecidable (o : COpts) : Decidable (saneC o) := by
  unfold saneC
  infer_instance

instance keysNormalDecidable (fs : FS) : Decidable (keysNormal fs) := by
  unfold keysNormal
  infer_instance

/- ---------------------------------------------------------------- -/
/- Remove engine: rimraf / removeDir / rmkids / fixWinEPERM, and the  -/
/- remove wrapper.                                                   -/
/- ---------------------------------------------------------------- -/

/-- Call states of the recursive removal: the `remove` wrapper (with its
remaining busy retries), rimraf, removeDir (carrying the original error
that triggered the directory fallback, null when rimraf saw a directory
directly), rmkids before its readdir, the fold over the children, and
fixWinEPERM (carrying the error that triggered it). -/
inductive RemCall where
  | rem (fs : FS) (p : String) (tries : Nat)
  | rim (fs : FS) (p : String)
  | rdir (fs : FS) (p : String) (orig : Option JsError)
  | rkids (fs : FS) (p : String)
  | rkidsGo (fs : FS) (p : String) (names : List String)
  | fixW (fs : FS) (p : String) (err : JsError)

/-- One fuel-indexed step function for the whole removal recursion.
`win` is util.js's isWindows.  The `remove` wrapper case is modelled from
the spec (its file, src/nextra/remove.js, is not part of the sources):
it retries rimraf on busy-class errors on Windows, treats a not-found
failure as success, and propagates anything else to the caller; all
other cases are embedded from util.js.  The Promise.all fan-out of
rmkids is modelled as a sequential left-to-right fold. -/
def removeStep (win : Bool) : Nat → RemCall → Option (FS × Option Thrown)
  | 0, _ => none
  | n + 1, .rem fs p tries =>
    match removeStep win n (.rim fs p) with
    | none => none
    | some (fs', none) => some (fs', none)
    | some (fs', some t) =>
      match t with
      | .jsError e =>
        if win ∧ (e.code = .EBUSY ∨ e.code = .ENOTEMPTY ∨ e.code = .EPERM) ∧ 0 < tries then
          removeStep win n (.rem fs' p (tries - 1))
        else if e.code = .ENOENT then some (fs', none)
        else some (fs', some t)
      | _ => some (fs', some t)
  | n + 1, .rim fs p =>
    match lstatE fs p with
    | .error er =>
      if er.code = .EPERM ∧ win then removeStep win n (.fixW fs p er)
      else some (fs, some (.jsError er))
    | .ok stats =>
      if stats.isDirectory then removeStep win n (.rdir fs p none)
      else
        match unlinkE fs p with
        | .ok fs' => some (fs', none)
        | .error er =>
          if er.code = .EPERM then
            if win then removeStep win n (.fixW fs p er)
            else removeStep win n (.rdir fs p (some er))
          else if er.code = .EISDIR then removeStep win n (.rdir fs p (some er))
          else some (fs, some (.jsError er))
  | n + 1, .rdir fs p orig =>
    match rmdirE fs p with
    | .ok fs' => some (fs', none)
    | .error er =>
      if er.code = .ENOTEMPTY ∨ er.code = .EEXIST ∨ er.code = .EPERM then
        removeStep win n (.rkids fs p)
      else if er.code = .ENOTDIR then
        some (fs, some (match orig with | some e => .jsError e | none => .jsNull))
      else some (fs, some (.jsError er))
  | n + 1, .rkids fs p =>
    match readdirE fs p with
    | .error er => some (fs, some (.jsError er))
    | .ok names => removeStep win n (.rkidsGo fs p names)
  | _ + 1, .rkidsGo fs p [] =>
    (match rmdirE fs p with
     | .ok fs' => some (fs', none)
     | .error er => some (fs, some (.jsError er)))
  | n + 1, .rkidsGo fs p (nm :: rest) =>
    match removeStep win n (.rem fs (jsJoin p nm) 3) with
    | none => none
    | some (fs', some t) => some (fs', some t)
    | some (fs', none) => removeStep win n (.rkidsGo fs' p rest)
  | n + 1, .fixW fs p err =>
    match chmodE fs p 666 with
    | .error er =>
      some (fs, some (if er.code = .ENOENT then .jsNull else .jsError err))
    | .ok fs1 =>
      match statE fs1 p with
      | .error er =>
        some (fs1, some (if er.code = .ENOENT then .jsNull else .jsError err))
      | .ok stats =>
        if stats.isDirectory then removeStep win n (.rdir fs1 p (some err))
        else
          match unlinkE fs1 p with
          | .ok fs' => some (fs', none)
          | .error er => some (fs1, some (.jsError er))

/-- util.js rimraf, fuel-indexed. -/
def rimraf (win : Bool) (fuel : Nat) (fs : FS) (p : String) : Option (FS × Option Thrown) :=
  removeStep win fuel (.rim fs p)

/-- Modelled from the spec: the `remove` entry point (src/nextra/remove.js
is not among the sources; only util.js is).  Per the spec's RemoveEngine
and error-propagation sections it runs rimraf, retries busy-class
failures on Windows with up to three backoff attempts, treats a
not-found failure as already-successful, and surfaces every other
failure unchanged. -/
def remove (win : Bool) (fuel : Nat) (fs : FS) (p : String) : Option (FS × Option Thrown) :=
  removeStep win fuel (.rem fs p 3)

/- ---------------------------------------------------------------- -/
/- Scan engine: scanDeep.                                            -/
/- ---------------------------------------------------------------- -/

/-- ScanOptions: an optional filter over (stats, path) and an optional
depth limit (absent means unbounded, as the source's typeof check
distinguishes). -/
structure SOpts where
  filter : Option (FNode → String → Bool)
  depthLimit : Option Nat

/-- The result accumulator: Map.set semantics over an ordered list of
path-to-stats bindings. -/
def setResult (rs : List (String × FNode)) (k : String) (v : FNode) :
    List (String × FNode) :=
  if rs.any (fun e => e.1 == k) then rs.map (fun e => if e.1 == k then (k, v) else e)
  else rs ++ [(k, v)]

/-- Call states of scanDeep: one entry visit, and the fold over a
directory's children.  The fold carries the mutable `level` variable of
the source: `++level` in the Promise.all map callback increments it once
per sibling before each recursive call, so the fold passes `level + 1`
to a child and continues over the remaining siblings with the
incremented value. -/
inductive ScanCall where
  | go (dir : String) (results : List (String × FNode)) (level : Nat)
  | kids (base : String) (names : List String) (results : List (String × FNode))
      (level : Nat)

/-- util.js scanDeep, fuel-indexed over the filesystem `fs` (the scan
never mutates it).  The child fan-out is modelled sequentially; the
levels each child receives are computed synchronously in the source and
are therefore the same there. -/
def scanStep (fs : FS) (o : SOpts) : Nat → ScanCall → Option (Except JsError (List (String × FNode)))
  | 0, _ => none
  | n + 1, .go dir results level =>
    match lstatE fs dir with
    | .error e => some (.error e)
    | .ok stats =>
      let results1 :=
        if (match o.filter with | some f => f stats dir | none => true) then
          setResult results dir stats
        else results
      if stats.isDirectory &&
          (match o.depthLimit with | none => true | some d => decide (level < d)) then
        match readdirE fs dir with
        | .error e => some (.error e)
        | .ok parts => scanStep fs o n (.kids dir parts results1 level)
      else some (.ok results1)
  | _ + 1, .kids _ [] results _ => some (.ok results)
  | n + 1, .kids base (part :: rest) results level =>
    match scanStep fs o n (.go (jsJoin base part) results (level + 1)) with
    | none => none
    | some (.error e) => some (.error e)
    | some (.ok results') => scanStep fs o n (.kids base rest results' (level + 1))

/-- util.js scanDeep, fuel-indexed. -/
def scanDeep (fs : FS) (o : SOpts) (fuel : Nat) (dir : String)
    (results : List (String × FNode)) (level : Nat) :
    Option (Except JsError (List (String × FNode))) :=
  scanStep fs o fuel (.go dir results level)

/- ---------------------------------------------------------------- -/
/- Concrete filesystems used by counterexamples and witnesses.       -/
/- ---------------------------------------------------------------- -/

def dirNode : FNode := ⟨.directory, 493⟩

/-- User options with every field defaulted (copy(src, dest) with no
options object). -/
def uDefault : UserOpts := ⟨none, none, false, false, false⟩

/-- Root plus one empty directory `/a`. -/
def exRootA : FS := ⟨[("/", dirNode), ("/a", dirNode)], []⟩

/-- A depth-two tree under `/r`: directories `/r/a` and `/r/b`, files
`/r/a/f` and `/r/b/g`. -/
def exScanFS : FS :=
  ⟨[("/", dirNode), ("/r", dirNode), ("/r/a", dirNode), ("/r/b", dirNode),
    ("/r/a/f", ⟨.file "x", 420⟩), ("/r/b/g", ⟨.file "y", 420⟩)], []⟩

/-- An empty directory `/d` whose rmdir the platform answers with an
ENOTDIR error. -/
def exNotDirFS : FS :=
  ⟨[("/", dirNode), ("/d", dirNode)], [(.opRmdir, "/d", ⟨.ENOTDIR, "boom"⟩)]⟩

/-- A file `/f` whose unlink fails EPERM (locked) and whose chmod fails
ENOENT (the entry vanished before the recovery retry). -/
def exWinFS : FS :=
  ⟨[("/", dirNode), ("/f", ⟨.file "z", 420⟩)],
   [(.opUnlink, "/f", ⟨.EPERM, "locked"⟩), (.opChmod, "/f", ⟨.ENOENT, "gone"⟩)]⟩

/-- A source directory `/a/b` at depth two containing a relative symlink
`link -> ../f` whose target `/a/f` exists. -/
def exLinkFS : FS :=
  ⟨[("/", dirNode), ("/a", dirNode), ("/a/f", ⟨.file "hello", 420⟩),
    ("/a/b", dirNode), ("/a/b/link", ⟨.symlink "../f", 511⟩)], []⟩

/-- The state exLinkFS reaches after `copy("/a/b", "/dst")`: the
destination directory and a verbatim copy of the relative link. -/
def exLinkFS' : FS :=
  ⟨[("/", dirNode), ("/a", dirNode), ("/a/f", ⟨.file "hello", 420⟩),
    ("/a/b", dirNode), ("/a/b/link", ⟨.symlink "../f", 511⟩),
    ("/dst", dirNode), ("/dst/link", ⟨.symlink "../f", 511⟩)], []⟩

/-- A destination file `/t` whose lstat fails with EACCES, next to a
source file `/s`. -/
def exAccesFS : FS :=
  ⟨[("/", dirNode), ("/s", ⟨.file "src", 420⟩), ("/t", ⟨.file "old", 420⟩)],
   [(.opLstat, "/t", ⟨.EACCES, "denied"⟩)]⟩

/-- Source file `/s` and destination file `/t`, no injections. -/
def exTwoFiles : FS :=
  ⟨[("/", dirNode), ("/s", ⟨.file "new", 420⟩), ("/t", ⟨.file "old", 384⟩)], []⟩

/-- A concrete COpts record: always-true filter, overwrite on, resolved
roots `/s` to `/t`. -/
def oPlain : COpts :=
  ⟨"/", fun _ _ => true, true, false, false, false, "/s", "/t"⟩

/-- oPlain with overwrite off and errorOnExist on. -/
def oNoOverwriteErr : COpts :=
  ⟨"/", fun _ _ => true, false, true, false, false, "/s", "/t"⟩

/-- A source tree for the filter scenarios: `/src` holding files `f`
and `g` and a subdirectory `sub` with one file `h`; no destination
exists yet. -/
def exFilterFS : FS :=
  ⟨[("/", dirNode), ("/src", dirNode), ("/src/f", ⟨.file "1", 420⟩),
    ("/src/g", ⟨.file "2", 420⟩), ("/src/sub", dirNode),
    ("/src/sub/h", ⟨.file "3", 420⟩)], []⟩

/-- Resolved options for copying `/src` to `/dst` with a filter that
rejects exactly the file `/src/f`. -/
def oRejFile : COpts :=
  ⟨"/", fun p _ => p != "/src/f", true, false, false, false, "/src", "/dst"⟩

/-- Resolved options for copying `/src` to `/dst` with a filter that
rejects exactly the subdirectory `/src/sub`. -/
def oRejSub : COpts :=
  ⟨"/", fun p _ => p != "/src/sub", true, false, false, false, "/src", "/dst"⟩

/-- What copying exFilterFS's `/src` to `/dst` under oRejFile leaves:
everything except `f` is copied — the rejected file is the only
omission, its siblings (`g`, `sub`, `sub/h`) all arrive. -/
def exFilterFS_noF : FS :=
  ⟨[("/", dirNode), ("/src", dirNode), ("/src/f", ⟨.file "1", 420⟩),
    ("/src/g", ⟨.file "2", 420⟩), ("/src/sub", dirNode),
    ("/src/sub/h", ⟨.file "3", 420⟩), ("/dst", dirNode),
    ("/dst/g", ⟨.file "2", 420⟩), ("/dst/sub", dirNode),
    ("/dst/sub/h", ⟨.file "3", 420⟩)], []⟩

/-- What copying exFilterFS's `/src` to `/dst` under oRejSub leaves:
the rejected subdirectory and its descendant are absent from the
destination, the sibling files `f` and `g` are copied. -/
def exFilterFS_noSub : FS :=
  ⟨[("/", dirNode), ("/src", dirNode), ("/src/f", ⟨.file "1", 420⟩),
    ("/src/g", ⟨.file "2", 420⟩), ("/src/sub", dirNode),
    ("/src/sub/h", ⟨.file "3", 420⟩), ("/dst", dirNode),
    ("/dst/f", ⟨.file "1", 420⟩), ("/dst/g", ⟨.file "2", 420⟩)], []⟩

/- ---------------------------------------------------------------- -/
/- Basic lemmas about the filesystem primitives.                     -/
/- ---------------------------------------------------------------- -/

theorem findInj_of_clean (fs : FS) (h : clean fs) (op : FsOp) (p : String) :
    findInj fs op p = none := by
  simp [findInj, clean] at *
  simp [h]

theorem clean_eraseFS (fs : FS) (h : clean fs) (p : String) : clean (eraseFS fs p) := h

theorem clean_insertFS (fs : FS) (h : clean fs) (p : String) (n : FNode) :
    clean (insertFS fs p n) := h

theorem clean_prune (fs : FS) (h : clean fs) (p : String) : clean (prune fs p) := h

theorem find?_filter_ne (l : List (String × FNode)) (p q : String) (h : q ≠ p) :
    List.find? (fun e => e.1 == q) (l.filter (fun e => e.1 != p)) =
      List.find? (fun e => e.1 == q) l := by
  induction l with
  | nil => rfl
  | cons e t ih =>
    by_cases heq : e.1 = q
    · have h1 : (e.1 != p) = true := by simp [heq, h]
      simp [List.filter_cons, h1, List.find?, heq, h]
    · by_cases hep : e.1 = p
      · have h1 : (e.1 != p) = false := by simp [hep]
        have h2 : (e.1 == q) = false := by simp [heq]
        simp [List.filter_cons, h1, List.find?, h2, ih]
      · have h1 : (e.1 != p) = true := by simp [hep]
        have h2 : (e.1 == q) = false := by simp [heq]
        simp [List.filter_cons, h1, List.find?, h2, ih]

theorem find?_filter_self (l : List (String × FNode)) (p : String) :
    List.find? (fun e => e.1 == p) (l.filter (fun e => e.1 != p)) = none := by
  induction l with
  | nil => rfl
  | cons e t ih =>
    by_cases hep : e.1 = p
    · have h1 : (e.1 != p) = false := by simp [hep]
      simp [List.filter_cons, h1, ih]
    · have h1 : (e.1 != p) = true := by simp [hep]
      have h2 : (e.1 == p) = false := by simp [hep]
      simp [List.filter_cons, h1, List.find?, h2, ih]

theorem lookupFS_eraseFS_ne (fs : FS) (p q : String) (h : q ≠ p) :
    lookupFS (eraseFS fs p) q = lookupFS fs q := by
  show ((fs.entries.filter (fun e => e.1 != p)).find? (fun e => e.1 == q)).map _ = _
  rw [find?_filter_ne fs.entries p q h]
  rfl

theorem lookupFS_insertFS_self (fs : FS) (p : String) (n : FNode) :
    lookupFS (insertFS fs p n) p = some n := by
  show ((fs.entries.filter (fun e => e.1 != p) ++ [(p, n)]).find? (fun e => e.1 == p)).map
      (fun e => e.2) = some n
  rw [List.find?_append, find?_filter_self fs.entries p]
  simp [List.find?]

/- ---------------------------------------------------------------- -/
/- replaceEsc is the identity: the dollar-dollar replacement string    -/
/- collapses to a single dollar under GetSubstitution.                -/
/- ---------------------------------------------------------------- -/

theorem jsReplaceAllCharData_dollars (l pre : List Char) :
    jsReplaceAllCharData '$' ("$$").data pre l = l := by
  induction l generalizing pre with
  | nil => rfl
  | cons c t ih =>
    by_cases hc : c = '$'
    · subst hc
      show getSub ['$'] pre t ("$$").data ++ jsReplaceAllCharData '$' ("$$").data (pre ++ ['$']) t
          = '$' :: t
      rw [ih]
      rfl
    · simp [jsReplaceAllCharData, hc, ih]

theorem replaceEsc_id (s : String) : replaceEsc s = s := by
  show String.mk (jsReplaceAllCharData '$' ("$$").data [] s.data) = s
  rw [jsReplaceAllCharData_dollars]

theorem lookupFS_eraseFS_self (fs : FS) (p : String) :
    lookupFS (eraseFS fs p) p = none := by
  show ((fs.entries.filter (fun e => e.1 != p)).find? (fun e => e.1 == p)).map _ = _
  rw [find?_filter_self fs.entries p]
  rfl

/- ---------------------------------------------------------------- -/
/- Lemmas about splitSlash / intercalateSlash and normalized paths.  -/
/- ---------------------------------------------------------------- -/

theorem splitSlash_slash_cons (t : List Char) : splitSlash ('/' :: t) = [] :: splitSlash t := by
  simp [splitSlash]

theorem splitSlash_cons_ne (c : Char) (t : List Char) (hc : ¬ c = '/') (h : List Char)
    (r : List (List Char)) (he : splitSlash t = h :: r) :
    splitSlash (c :: t) = (c :: h) :: r := by
  simp only [splitSlash, if_neg hc, he]

theorem splitSlash_ne_nil (l : List Char) : splitSlash l ≠ [] := by
  cases l with
  | nil => simp [splitSlash]
  | cons c t =>
    by_cases hc : c = '/'
    · subst hc
      rw [splitSlash_slash_cons]
      simp
    · cases he : splitSlash t with
      | nil =>
        simp only [splitSlash, if_neg hc, he]
        simp
      | cons h r =>
        rw [splitSlash_cons_ne c t hc h r he]
        simp

theorem intercalateSlash_cons (a : List Char) (r : List (List Char)) (h : r ≠ []) :
    intercalateSlash (a :: r) = a ++ '/' :: intercalateSlash r := by
  cases r with
  | nil => exact absurd rfl h
  | cons b r' => rfl

theorem intercalateSlash_splitSlash (l : List Char) :
    intercalateSlash (splitSlash l) = l := by
  induction l with
  | nil => rfl
  | cons c t ih =>
    by_cases hc : c = '/'
    · subst hc
      rw [splitSlash_slash_cons,
        intercalateSlash_cons [] (splitSlash t) (splitSlash_ne_nil t), ih]
      rfl
    · cases he : splitSlash t with
      | nil => exact absurd he (splitSlash_ne_nil t)
      | cons h r =>
        rw [splitSlash_cons_ne c t hc h r he]
        rw [he] at ih
        cases r with
        | nil =>
          show c :: h = c :: t
          have : h = t := ih
          rw [this]
        | cons b r' =>
          rw [intercalateSlash_cons (c :: h) (b :: r') (by simp),
            List.cons_append]
          rw [intercalateSlash_cons h (b :: r') (by simp)] at ih
          rw [ih]

theorem splitSlash_append (a b : List Char) :
    splitSlash (a ++ '/' :: b) = splitSlash a ++ splitSlash b := by
  induction a with
  | nil =>
    rw [List.nil_append, splitSlash_slash_cons]
    rfl
  | cons c t ih =>
    by_cases hc : c = '/'
    · subst hc
      rw [List.cons_append, splitSlash_slash_cons, splitSlash_slash_cons, ih]
      rfl
    · cases he : splitSlash t with
      | nil => exact absurd he (splitSlash_ne_nil t)
      | cons h r =>
        have hg : splitSlash (t ++ '/' :: b) = h :: (r ++ splitSlash b) := by
          rw [ih, he]
          rfl
        rw [List.cons_append, splitSlash_cons_ne c _ hc _ _ hg,
          splitSlash_cons_ne c t hc h r he]
        rfl

theorem splitSlash_no_slash (l : List Char) (h : l.contains '/' = false) :
    splitSlash l = [l] := by
  induction l with
  | nil => rfl
  | cons c t ih =>
    have hc : ¬ c = '/' := by
      intro he
      subst he
      simp [List.contains_cons] at h
    have ht : t.contains '/' = false := by
      simp [List.contains_cons] at h
      simp [h.2]
    rw [splitSlash_cons_ne c t hc t [] (ih ht)]

theorem normCompsAux_valid (l : List (List Char)) (acc : List (List Char))
    (h : ∀ c ∈ l, validName c = true) : normCompsAux acc l = acc ++ l := by
  induction l generalizing acc with
  | nil => simp [normCompsAux]
  | cons c t ih =>
    have hc := h c (by simp)
    have h1 : ¬ (c = [] ∨ c = ['.']) := by
      intro hor
      cases hor with
      | inl he => rw [he] at hc; simp [validName] at hc
      | inr he => rw [he] at hc; simp [validName] at hc
    have h2 : ¬ c = ['.', '.'] := by
      intro he
      rw [he] at hc
      simp [validName] at hc
    simp only [normCompsAux, if_neg h1, if_neg h2]
    rw [ih (acc ++ [c]) (fun d hd => h d (by simp [hd]))]
    simp

theorem data_append (p q : String) : (p ++ q).data = p.data ++ q.data := rfl

theorem data_append_slash (p nm : String) :
    (p ++ "/" ++ nm).data = p.data ++ '/' :: nm.data := by
  show (p.data ++ ['/']) ++ nm.data = p.data ++ '/' :: nm.data
  rw [List.append_assoc]
  rfl

theorem isNormalAbs_elim (p : String) (h : isNormalAbs p = true) :
    ∃ rest, p.data = '/' :: rest ∧ rest ≠ [] ∧ (splitSlash rest).all validName = true := by
  unfold isNormalAbs at h
  cases hd : p.data with
  | nil => rw [hd] at h; simp at h
  | cons c rest =>
    rw [hd] at h
    simp only [Bool.and_eq_true, beq_iff_eq, Bool.not_eq_true'] at h
    exact ⟨rest, by rw [h.1.1], List.isEmpty_eq_false.mp h.1.2, h.2⟩

theorem isNormalAbs_intro (p : String) (rest : List Char) (hd : p.data = '/' :: rest)
    (hne : rest ≠ []) (hv : (splitSlash rest).all validName = true) :
    isNormalAbs p = true := by
  unfold isNormalAbs
  rw [hd]
  simp [hne, hv]

theorem isNormalAbs_ne_root (p : String) (h : isNormalAbs p = true) : p ≠ "/" := by
  obtain ⟨rest, hd, hne, _⟩ := isNormalAbs_elim p h
  intro he
  rw [he] at hd
  have : rest = [] := by
    have h2 : ['/'] = '/' :: rest := hd
    exact (List.cons.injEq _ _ _ _).mp h2 |>.2.symm
  exact hne this

theorem normalizeAbs_of_normal (p : String) (h : isNormalAbs p = true) :
    normalizeAbs p = p := by
  obtain ⟨rest, hd, hne, hv⟩ := isNormalAbs_elim p h
  unfold normalizeAbs
  rw [hd, splitSlash_slash_cons]
  have hv' : ∀ c ∈ splitSlash rest, validName c = true := by
    intro c hc
    exact List.all_eq_true.mp hv c hc
  rw [show normCompsAux [] ([] :: splitSlash rest) =
      normCompsAux [] (splitSlash rest) from by simp [normCompsAux]]
  rw [normCompsAux_valid (splitSlash rest) [] hv', List.nil_append,
    intercalateSlash_splitSlash]
  exact String.ext hd.symm

theorem validName_no_slash (nm : List Char) (h : validName nm = true) :
    nm.contains '/' = false := by
  unfold validName at h
  simp only [Bool.and_eq_true, Bool.not_eq_true'] at h
  exact h.1.1.2

theorem isNormalAbs_append (p nm : String) (hp : isNormalAbs p = true)
    (hnm : validName nm.data = true) : isNormalAbs (p ++ "/" ++ nm) = true := by
  obtain ⟨rest, hd, hne, hv⟩ := isNormalAbs_elim p hp
  have hdata : (p ++ "/" ++ nm).data = '/' :: (rest ++ '/' :: nm.data) := by
    rw [data_append_slash, hd]
    rfl
  apply isNormalAbs_intro _ _ hdata (by simp)
  rw [splitSlash_append, List.all_append, hv,
    splitSlash_no_slash nm.data (validName_no_slash nm.data hnm)]
  simp [hnm]

theorem jsJoin_normal (p nm : String) (hp : isNormalAbs p = true)
    (hnm : validName nm.data = true) : jsJoin p nm = p ++ "/" ++ nm := by
  unfold jsJoin
  exact normalizeAbs_of_normal _ (isNormalAbs_append p nm hp hnm)

theorem splitSlash_intercalateSlash (L : List (List Char))
    (h : ∀ c ∈ L, c.contains '/' = false) (hne : L ≠ []) :
    splitSlash (intercalateSlash L) = L := by
  induction L with
  | nil => exact absurd rfl hne
  | cons a t ih =>
    cases t with
    | nil =>
      show splitSlash a = [a]
      exact splitSlash_no_slash a (h a (by simp))
    | cons b t' =>
      rw [intercalateSlash_cons a (b :: t') (by simp), splitSlash_append,
        splitSlash_no_slash a (h a (by simp)), ih (fun c hc => h c (by simp [hc])) (by simp)]
      rfl

theorem intercalateSlash_concat (L : List (List Char)) (x : List Char) (h : L ≠ []) :
    intercalateSlash (L ++ [x]) = intercalateSlash L ++ '/' :: x := by
  induction L with
  | nil => exact absurd rfl h
  | cons a t ih =>
    cases t with
    | nil => rfl
    | cons b t' =>
      rw [List.cons_append, intercalateSlash_cons a ((b :: t') ++ [x]) (by simp),
        intercalateSlash_cons a (b :: t') (by simp), ih (by simp)]
      simp

/-- Every normalized absolute path is either a single component under
the root or a child of a shorter normalized absolute path; either way,
dirname computes the parent. -/
theorem dirname_normal (q : String) (h : isNormalAbs q = true) :
    (∃ nm : String, validName nm.data = true ∧ q = "/" ++ nm ∧ dirname q = "/") ∨
    (∃ (p nm : String), isNormalAbs p = true ∧ validName nm.data = true ∧
      q = p ++ "/" ++ nm ∧ dirname q = p) := by
  obtain ⟨rest, hd, hne, hv⟩ := isNormalAbs_elim q h
  have hvm : ∀ c ∈ splitSlash rest, validName c = true := fun c hc =>
    List.all_eq_true.mp hv c hc
  rcases List.eq_nil_or_concat' (splitSlash rest) with hnil | ⟨L, x, hLx⟩
  · exact absurd hnil (splitSlash_ne_nil rest)
  · have hxv : validName x = true := hvm x (by rw [hLx]; simp)
    cases L with
    | nil =>
      left
      have hrx : rest = x := by
        have := intercalateSlash_splitSlash rest
        rw [hLx] at this
        exact this.symm
      refine ⟨String.mk x, hxv, ?_, ?_⟩
      · apply String.ext
        rw [hd, hrx]
        rfl
      · unfold dirname
        rw [hd, splitSlash_slash_cons, hLx]
        have : (([] :: ([] ++ [x])).dropLast) = [[]] := by
          simp
        rw [show ([] : List Char) :: ([] ++ [x]) = ([[], x] : List (List Char)) from by simp]
        rw [show ((([[], x] : List (List Char))).dropLast) = [[]] from by simp]
        have habs : isAbsolute q = true := by
          unfold isAbsolute
          rw [hd]
          simp
        simp [intercalateSlash, habs]
    | cons c0 L' =>
      right
      have hLne : (c0 :: L') ≠ ([] : List (List Char)) := by simp
      have hLv : ∀ d ∈ c0 :: L', validName d = true := fun d hdm =>
        hvm d (by rw [hLx]; exact List.mem_append_left [x] hdm)
      have hLns : ∀ d ∈ c0 :: L', d.contains '/' = false := fun d hdm =>
        validName_no_slash d (hLv d hdm)
      have hrest : rest = intercalateSlash (c0 :: L') ++ '/' :: x := by
        have := intercalateSlash_splitSlash rest
        rw [hLx, intercalateSlash_concat (c0 :: L') x hLne] at this
        exact this.symm
      have hc0ne : c0 ≠ [] := by
        have := hLv c0 (by simp)
        unfold validName at this
        simp only [Bool.and_eq_true, Bool.not_eq_true'] at this
        exact List.isEmpty_eq_false.mp this.1.1.1
      have hicne : intercalateSlash (c0 :: L') ≠ [] := by
        cases L' with
        | nil => exact hc0ne
        | cons b t' =>
          rw [intercalateSlash_cons c0 (b :: t') (by simp)]
          intro hcon
          exact hc0ne (List.append_eq_nil.mp hcon).1
      refine ⟨String.mk ('/' :: intercalateSlash (c0 :: L')), String.mk x, ?_, hxv, ?_, ?_⟩
      · apply isNormalAbs_intro _ (intercalateSlash (c0 :: L')) rfl hicne
        rw [splitSlash_intercalateSlash (c0 :: L') hLns hLne]
        exact List.all_eq_true.mpr hLv
      · apply String.ext
        rw [hd, hrest, data_append_slash]
        show '/' :: (intercalateSlash (c0 :: L') ++ '/' :: x) =
          ('/' :: intercalateSlash (c0 :: L')) ++ '/' :: x
        simp
      · unfold dirname
        rw [hd, splitSlash_slash_cons, hLx]
        rw [show (([] : List Char) :: (c0 :: L' ++ [x])) = (([] :: c0 :: L') ++ [x]) from by
          simp]
        rw [List.dropLast_concat]
        rw [intercalateSlash_cons [] (c0 :: L') (by simp)]
        simp

theorem dirname_append (p nm : String) (hp : isNormalAbs p = true)
    (hnm : validName nm.data = true) : dirname (p ++ "/" ++ nm) = p := by
  obtain ⟨rest, hd, hne, hv⟩ := isNormalAbs_elim p hp
  have hsplit : intercalateSlash ((splitSlash ((p ++ "/" ++ nm).data)).dropLast) =
      '/' :: rest := by
    rw [data_append_slash, hd, List.cons_append, splitSlash_slash_cons, splitSlash_append,
      splitSlash_no_slash nm.data (validName_no_slash nm.data hnm)]
    rw [show (([] : List Char) :: (splitSlash rest ++ [nm.data])) =
      (([] :: splitSlash rest) ++ [nm.data]) from by simp]
    rw [List.dropLast_concat]
    rw [intercalateSlash_cons [] (splitSlash rest) (splitSlash_ne_nil rest)]
    rw [List.nil_append, intercalateSlash_splitSlash]
  unfold dirname
  simp only [hsplit]
  have hnn : ('/' :: rest) ≠ [] := by simp
  rw [if_neg hnn]
  exact String.ext hd.symm

/- ---------------------------------------------------------------- -/
/- Dominance (underEqB) lemmas.                                      -/
/- ---------------------------------------------------------------- -/

theorem underEqB_iff (p q : String) :
    underEqB p q = true ↔ p = q ∨ ∃ s, q.data = p.data ++ '/' :: s := by
  unfold underEqB
  simp only [Bool.or_eq_true, beq_iff_eq]
  constructor
  · intro h
    rcases h with h | h
    · exact .inl h
    · obtain ⟨t, ht⟩ := List.isPrefixOf_iff_prefix.mp h
      right
      refine ⟨t, ?_⟩
      rw [← ht]
      show (p.data ++ ['/']) ++ t = p.data ++ '/' :: t
      simp
  · intro h
    rcases h with h | ⟨s, hs⟩
    · exact .inl h
    · right
      apply List.isPrefixOf_iff_prefix.mpr
      refine ⟨s, ?_⟩
      rw [hs]
      show (p.data ++ ['/']) ++ s = p.data ++ '/' :: s
      simp

theorem underEqB_refl (p : String) : underEqB p p = true := by
  simp [underEqB]

theorem underEqB_trans (a b c : String) (h1 : underEqB a b = true)
    (h2 : underEqB b c = true) : underEqB a c = true := by
  rw [underEqB_iff] at *
  rcases h1 with rfl | ⟨s, hs⟩
  · exact h2
  · rcases h2 with rfl | ⟨t, ht⟩
    · exact .inr ⟨s, hs⟩
    · refine .inr ⟨s ++ '/' :: t, ?_⟩
      rw [ht, hs]
      simp

theorem underEqB_append_right (p nm : String) : underEqB p (p ++ "/" ++ nm) = true := by
  rw [underEqB_iff]
  exact .inr ⟨nm.data, data_append_slash p nm⟩

theorem underEqB_length (p q : String) (h : underEqB p q = true) :
    p.data.length ≤ q.data.length := by
  rw [underEqB_iff] at h
  rcases h with rfl | ⟨s, hs⟩
  · exact le_refl _
  · rw [hs]
    simp

theorem not_underEqB_append_self (p nm : String) :
    underEqB (p ++ "/" ++ nm) p = false := by
  apply Bool.eq_false_iff.mpr
  intro h
  have := underEqB_length _ _ h
  rw [data_append_slash] at this
  simp at this

theorem underEqB_root_false (p : String) (hp : isNormalAbs p = true) :
    underEqB p "/" = false := by
  apply Bool.eq_false_iff.mpr
  intro h
  rw [underEqB_iff] at h
  obtain ⟨rest, hd, hne, _⟩ := isNormalAbs_elim p hp
  rcases h with h | ⟨s, hs⟩
  · exact isNormalAbs_ne_root p hp h
  · have : ("/" : String).data = ['/'] := rfl
    rw [this, hd] at hs
    have := congrArg List.length hs
    simp at this

/- ---------------------------------------------------------------- -/
/- Lookup after prune, membership, wf accessors.                     -/
/- ---------------------------------------------------------------- -/

theorem find?_filter_key (l : List (String × FNode)) (f : String → Bool) (q : String)
    (hq : f q = true) :
    (l.filter (fun e => f e.1)).find? (fun e => e.1 == q) =
      l.find? (fun e => e.1 == q) := by
  induction l with
  | nil => rfl
  | cons e t ih =>
    by_cases heq : e.1 = q
    · have h1 : f e.1 = true := by rw [heq]; exact hq
      simp [List.filter_cons, h1, hq, List.find?, heq]
    · have h2 : (e.1 == q) = false := by simp [heq]
      by_cases hf : f e.1 = true
      · simp [List.filter_cons, hf, List.find?, h2, ih]
      · have h3 : f e.1 = false := Bool.eq_false_iff.mpr hf
        simp [List.filter_cons, h3, List.find?, h2, ih]

theorem lookupFS_prune_not_under (fs : FS) (p q : String) (h : underEqB p q = false) :
    lookupFS (prune fs p) q = lookupFS fs q := by
  show ((fs.entries.filter (fun e => !(underEqB p e.1))).find? (fun e => e.1 == q)).map
    (fun e => e.2) = _
  rw [find?_filter_key fs.entries (fun x => !(underEqB p x)) q (by simp [h])]
  rfl

theorem mem_lookupFS (fs : FS) (q : String) (n : FNode) (h : (q, n) ∈ fs.entries) :
    ∃ m, lookupFS fs q = some m := by
  have hs : (fs.entries.find? (fun e => e.1 == q)).isSome := by
    rw [List.find?_isSome]
    exact ⟨(q, n), h, by simp⟩
  cases hf : fs.entries.find? (fun e => e.1 == q) with
  | none => rw [hf] at hs; simp at hs
  | some x =>
    refine ⟨x.2, ?_⟩
    show (fs.entries.find? (fun e => e.1 == q)).map (fun e => e.2) = some x.2
    rw [hf]
    rfl

theorem lookupFS_mem (fs : FS) (q : String) (m : FNode) (h : lookupFS fs q = some m) :
    (q, m) ∈ fs.entries := by
  unfold lookupFS at h
  cases hf : fs.entries.find? (fun e => e.1 == q) with
  | none => rw [hf] at h; exact absurd h (by simp)
  | some x =>
    obtain ⟨a, b⟩ := x
    rw [hf] at h
    have hb : b = m := by simpa using h
    have ha : a = q := by simpa using List.find?_some hf
    subst ha
    subst hb
    exact List.mem_of_find?_eq_some hf

theorem wf_entry_normal (fs : FS) (hwf : wf fs) (q : String) (n : FNode)
    (h : (q, n) ∈ fs.entries) (hq : q ≠ "/") :
    isNormalAbs q = true ∧ (lookupFS fs (dirname q)).any FNode.isDirectory = true := by
  rcases hwf.2.2 (q, n) h with h1 | h2
  · exact absurd h1 hq
  · exact h2

theorem validName_ne_nil (c : List Char) (h : validName c = true) : c ≠ [] := by
  unfold validName at h
  simp only [Bool.and_eq_true, Bool.not_eq_true'] at h
  exact List.isEmpty_eq_false.mp h.1.1.1

theorem option_any_elim (o : Option FNode) (h : o.any FNode.isDirectory = true) :
    ∃ m, o = some m ∧ m.isDirectory = true := by
  cases o with
  | none => simp [Option.any] at h
  | some m => exact ⟨m, rfl, by simpa [Option.any] using h⟩

/- ---------------------------------------------------------------- -/
/- childNameOf lemmas.                                               -/
/- ---------------------------------------------------------------- -/

theorem childNameOf_append (p seg : String) (hp : isNormalAbs p = true)
    (hseg : validName seg.data = true) :
    childNameOf p (p ++ "/" ++ seg) = some seg := by
  have hpr : p ≠ "/" := isNormalAbs_ne_root p hp
  unfold childNameOf
  simp only [if_neg hpr]
  have hpre : (p ++ "/").data.isPrefixOf ((p ++ "/" ++ seg).data) = true := by
    apply List.isPrefixOf_iff_prefix.mpr
    exact ⟨seg.data, rfl⟩
  rw [hpre]
  simp only [if_true]
  rw [show ((p ++ "/" ++ seg).data.drop (p ++ "/").data.length) = seg.data from
    List.drop_left _ _]
  rw [if_pos ⟨validName_ne_nil seg.data hseg, validName_no_slash seg.data hseg⟩]

theorem childNameOf_some (p q nm : String) (hp : p ≠ "/")
    (h : childNameOf p q = some nm) :
    q.data = p.data ++ '/' :: nm.data ∧ nm.data ≠ [] ∧ nm.data.contains '/' = false := by
  unfold childNameOf at h
  simp only [if_neg hp] at h
  by_cases hpre : (p ++ "/").data.isPrefixOf q.data = true
  · rw [hpre] at h
    simp only [if_true] at h
    obtain ⟨t, ht⟩ := List.isPrefixOf_iff_prefix.mp hpre
    have hdrop : q.data.drop (p ++ "/").data.length = t := by
      rw [← ht]
      exact List.drop_left _ _
    rw [hdrop] at h
    by_cases hcond : t ≠ [] ∧ t.contains '/' = false
    · rw [if_pos hcond] at h
      have hnm : nm = String.mk t := by
        have := h
        simp at this
        exact this.symm
      refine ⟨?_, ?_, ?_⟩
      · rw [hnm, ← ht]
        show (p.data ++ ['/']) ++ t = p.data ++ '/' :: t
        simp
      · rw [hnm]; exact hcond.1
      · rw [hnm]; exact hcond.2
    · rw [if_neg hcond] at h
      exact absurd h (by simp)
  · have hpre' : (p ++ "/").data.isPrefixOf q.data = false := Bool.eq_false_iff.mpr hpre
    rw [hpre'] at h
    simp at h

theorem childNameOf_under (p q nm : String) (hp : p ≠ "/")
    (h : childNameOf p q = some nm) : underEqB p q = true ∧ q ≠ p := by
  obtain ⟨hd, hne, _⟩ := childNameOf_some p q nm hp h
  constructor
  · rw [underEqB_iff]
    exact .inr ⟨nm.data, hd⟩
  · intro he
    rw [he] at hd
    have := congrArg List.length hd
    simp at this

theorem childNameOf_self_none (p : String) : childNameOf p p = none := by
  unfold childNameOf
  by_cases hp : p = "/"
  · subst hp
    rfl
  · simp only [if_neg hp]
    by_cases hpre : (p ++ "/").data.isPrefixOf p.data = true
    · obtain ⟨t, ht⟩ := List.isPrefixOf_iff_prefix.mp hpre
      have := congrArg List.length ht
      simp at this
    · rw [Bool.eq_false_iff.mpr hpre]
      simp

/- ---------------------------------------------------------------- -/
/- Ancestors of present entries are present.                         -/
/- ---------------------------------------------------------------- -/

theorem ancestor_present (fs : FS) (hwf : wf fs) :
    ∀ (k : Nat) (q : String) (n : FNode) (a : String), q.data.length ≤ k →
      (q, n) ∈ fs.entries → isNormalAbs a = true → underEqB a q = true →
      ∃ m, lookupFS fs a = some m ∧ (a = q ∨ m.isDirectory = true) := by
  intro k
  induction k with
  | zero =>
    intro q n a hk hmem hna hun
    have h1 := underEqB_length a q hun
    obtain ⟨rest, hd, _, _⟩ := isNormalAbs_elim a hna
    rw [hd] at h1
    simp at h1 hk
    omega
  | succ k ih =>
    intro q n a hk hmem hna hun
    by_cases haq : a = q
    · obtain ⟨m, hm⟩ := mem_lookupFS fs q n hmem
      exact ⟨m, by rw [haq]; exact hm, .inl haq⟩
    · have hqroot : q ≠ "/" := by
        intro he
        rw [he] at hun
        rw [underEqB_root_false a hna] at hun
        exact absurd hun (by simp)
      obtain ⟨hqn, hpar⟩ := wf_entry_normal fs hwf q n hmem hqroot
      obtain ⟨pm, hpm, hpmd⟩ := option_any_elim _ hpar
      obtain ⟨s, hs⟩ : ∃ s, q.data = a.data ++ '/' :: s := by
        rcases (underEqB_iff a q).mp hun with he | hex
        · exact absurd he haq
        · exact hex
      rcases dirname_normal q hqn with ⟨nm, hnmv, hq1, _⟩ | ⟨p, nm, hpn, hnmv, hq2, hdq⟩
      · exfalso
        obtain ⟨resta, hda, _, _⟩ := isNormalAbs_elim a hna
        have hqd : q.data = '/' :: nm.data := by rw [hq1]; rfl
        rw [hqd, hda] at hs
        have hnmeq : nm.data = resta ++ '/' :: s := by
          have h2 : '/' :: nm.data = '/' :: (resta ++ '/' :: s) := by
            rw [hs]
            simp
          exact (List.cons.injEq _ _ _ _).mp h2 |>.2
        have hcont := validName_no_slash nm.data hnmv
        rw [hnmeq] at hcont
        simp at hcont
      · rw [hdq] at hpm
        have hqd : q.data = p.data ++ '/' :: nm.data := by
          rw [hq2]
          exact data_append_slash p nm
        by_cases hap : a = p
        · exact ⟨pm, by rw [hap]; exact hpm, .inr hpmd⟩
        · have hpre1 : (a.data ++ ['/']) <+: q.data := by
            refine ⟨s, ?_⟩
            rw [hs]
            simp
          have hpre2 : (p.data ++ ['/']) <+: q.data := by
            refine ⟨nm.data, ?_⟩
            rw [hqd]
            simp
          have hup : underEqB a p = true := by
            rcases List.prefix_or_prefix_of_prefix hpre1 hpre2 with hab | hba
            · rcases List.prefix_concat_iff.mp hab with heq | hpp
              · exfalso
                have : a.data = p.data := List.append_cancel_right heq
                exact hap (String.ext this)
              · obtain ⟨t, ht⟩ := hpp
                rw [underEqB_iff]
                refine .inr ⟨t, ?_⟩
                rw [← ht]
                simp
            · exfalso
              rcases List.prefix_concat_iff.mp hba with heq | hpp
              · have : p.data = a.data := List.append_cancel_right heq
                exact hap (String.ext this).symm
              · obtain ⟨t, ht⟩ := hpp
                have h3 : q.data = (p.data ++ '/' :: t) ++ '/' :: s := by
                  rw [hs, ← ht]
                  simp
                rw [hqd] at h3
                have h4 : nm.data = t ++ '/' :: s := by
                  have h5 : p.data ++ '/' :: nm.data = p.data ++ '/' :: (t ++ '/' :: s) := by
                    rw [h3]
                    simp
                  have h6 := List.append_cancel_left h5
                  exact (List.cons.injEq _ _ _ _).mp h6 |>.2
                have hcont := validName_no_slash nm.data hnmv
                rw [h4] at hcont
                simp at hcont
          have hpmem := lookupFS_mem fs p pm hpm
          have hlen : p.data.length ≤ k := by
            rw [hqd] at hk
            simp only [List.length_append, List.length_cons] at hk
            omega
          obtain ⟨m, hm, hor⟩ := ih p pm a hlen hpmem hna hup
          rcases hor with he | hdir
          · refine ⟨m, hm, .inr ?_⟩
            rw [he] at hm
            rw [hm] at hpm
            have h8 : m = pm := by simpa using hpm
            rw [h8]
            exact hpmd
          · exact ⟨m, hm, .inr hdir⟩

/-- A strict descendant of a normalized path inside a well-formed
filesystem witnesses a present direct child of that path. -/
theorem descendant_child (fs : FS) (hwf : wf fs) (p : String) (hp : isNormalAbs p = true)
    (q : String) (n : FNode) (hmem : (q, n) ∈ fs.entries)
    (hun : underEqB p q = true) (hne : q ≠ p) :
    ∃ (seg : String) (m : FNode), validName seg.data = true ∧
      lookupFS fs (p ++ "/" ++ seg) = some m ∧
      underEqB (p ++ "/" ++ seg) q = true ∧
      childNameOf p (p ++ "/" ++ seg) = some seg := by
  obtain ⟨s, hs⟩ : ∃ s, q.data = p.data ++ '/' :: s := by
    rcases (underEqB_iff p q).mp hun with he | hex
    · exact absurd he.symm hne
    · exact hex
  have hqroot : q ≠ "/" := by
    intro he
    rw [he] at hs
    obtain ⟨restp, hdp, _, _⟩ := isNormalAbs_elim p hp
    rw [hdp] at hs
    have := congrArg List.length hs
    simp at this
  obtain ⟨hqn, _⟩ := wf_entry_normal fs hwf q n hmem hqroot
  obtain ⟨restq, hdq, _, hvq⟩ := isNormalAbs_elim q hqn
  obtain ⟨restp, hdp, _, hvp⟩ := isNormalAbs_elim p hp
  have hrq : restq = restp ++ '/' :: s := by
    rw [hdq, hdp] at hs
    have h2 : '/' :: restq = '/' :: (restp ++ '/' :: s) := by
      rw [hs]
      simp
    exact (List.cons.injEq _ _ _ _).mp h2 |>.2
  have hsplitq : splitSlash restq = splitSlash restp ++ splitSlash s := by
    rw [hrq, splitSlash_append]
  have hvs : ∀ c ∈ splitSlash s, validName c = true := by
    intro c hc
    exact List.all_eq_true.mp hvq c (by rw [hsplitq]; exact List.mem_append_right _ hc)
  cases hS : splitSlash s with
  | nil => exact absurd hS (splitSlash_ne_nil s)
  | cons seg0 S' =>
    have hseg0 : validName seg0 = true := hvs seg0 (by rw [hS]; simp)
    have hints : intercalateSlash (seg0 :: S') = s := by
      rw [← hS]
      exact intercalateSlash_splitSlash s
    have hav : isNormalAbs (p ++ "/" ++ String.mk seg0) = true :=
      isNormalAbs_append p (String.mk seg0) hp hseg0
    have hund : underEqB (p ++ "/" ++ String.mk seg0) q = true := by
      cases S' with
      | nil =>
        have hqa : q = p ++ "/" ++ String.mk seg0 := by
          apply String.ext
          rw [hs, data_append_slash]
          have : s = seg0 := by rw [← hints]; rfl
          rw [this]
        rw [← hqa]
        exact underEqB_refl q
      | cons seg1 S2 =>
        rw [underEqB_iff]
        refine .inr ⟨intercalateSlash (seg1 :: S2), ?_⟩
        rw [hs, data_append_slash]
        show p.data ++ '/' :: s = (p.data ++ '/' :: seg0) ++ '/' :: intercalateSlash (seg1 :: S2)
        rw [← hints, intercalateSlash_cons seg0 (seg1 :: S2) (by simp)]
        simp
    obtain ⟨m, hm, _⟩ := ancestor_present fs hwf (q.data.length) q n
      (p ++ "/" ++ String.mk seg0) (le_refl _) hmem hav hund
    exact ⟨String.mk seg0, m, hseg0, hm, hund,
      childNameOf_append p (String.mk seg0) hp hseg0⟩

/- ---------------------------------------------------------------- -/
/- prune, wf and readdir lemmas.                                     -/
/- ---------------------------------------------------------------- -/

theorem prune_absent (fs : FS) (hwf : wf fs) (p : String) (hp : isNormalAbs p = true)
    (h : lookupFS fs p = none) : prune fs p = fs := by
  cases fs with
  | mk l inj =>
    show FS.mk (l.filter (fun e => !(underEqB p e.1))) inj = FS.mk l inj
    have hfil : l.filter (fun e => !(underEqB p e.1)) = l := by
      apply List.filter_eq_self.mpr
      intro e he
      cases hu : underEqB p e.1 with
      | false => simp
      | true =>
        exfalso
        have hmem : (e.1, e.2) ∈ (FS.mk l inj).entries := by simpa using he
        obtain ⟨m, hm, _⟩ := ancestor_present (FS.mk l inj) hwf e.1.data.length e.1 e.2 p
          (le_refl _) hmem hp hu
        rw [h] at hm
        exact absurd hm (by simp)
    rw [hfil]

theorem eraseFS_eq_prune (fs : FS) (p : String)
    (hnostrict : ∀ q n1, (q, n1) ∈ fs.entries → underEqB p q = true → q = p) :
    eraseFS fs p = prune fs p := by
  cases fs with
  | mk l inj =>
    show FS.mk (l.filter (fun e => e.1 != p)) inj =
      FS.mk (l.filter (fun e => !(underEqB p e.1))) inj
    have : l.filter (fun e => e.1 != p) = l.filter (fun e => !(underEqB p e.1)) := by
      apply List.filter_congr
      intro e he
      by_cases hep : e.1 = p
      · simp [hep, underEqB_refl]
      · cases hu : underEqB p e.1 with
        | false => simp [hep, hu]
        | true =>
          exfalso
          exact hep (hnostrict e.1 e.2 (by simpa using he) hu)
    rw [this]

theorem prune_prune_of_under (fs : FS) (p c : String) (h : underEqB p c = true) :
    prune (prune fs c) p = prune fs p := by
  cases fs with
  | mk l inj =>
    show FS.mk ((l.filter (fun e => !(underEqB c e.1))).filter
      (fun e => !(underEqB p e.1))) inj = FS.mk (l.filter (fun e => !(underEqB p e.1))) inj
    rw [List.filter_filter]
    have : (l.filter fun a => !underEqB p a.1 && !underEqB c a.1) =
        l.filter (fun e => !(underEqB p e.1)) := by
      apply List.filter_congr
      intro e _
      cases hup : underEqB p e.1 with
      | true => simp
      | false =>
        have huc : underEqB c e.1 = false := by
          cases huc : underEqB c e.1 with
          | false => rfl
          | true =>
            have := underEqB_trans p c e.1 h huc
            rw [this] at hup
            simp at hup
        simp [huc]
    rw [this]

theorem wf_prune (fs : FS) (hwf : wf fs) (p : String) (hp : isNormalAbs p = true) :
    wf (prune fs p) := by
  refine ⟨?_, ?_, ?_⟩
  · have h1 : ((fs.entries.filter (fun e => !(underEqB p e.1))).map Prod.fst).Sublist
        (fs.entries.map Prod.fst) := (List.filter_sublist _).map Prod.fst
    exact List.Nodup.sublist h1 hwf.1
  · rw [lookupFS_prune_not_under fs p "/" (underEqB_root_false p hp)]
    exact hwf.2.1
  · intro e he
    have he' : e ∈ fs.entries.filter (fun e => !(underEqB p e.1)) := he
    have hmem := (List.mem_filter.mp he').1
    have hkeep := (List.mem_filter.mp he').2
    simp only [Bool.not_eq_true'] at hkeep
    rcases hwf.2.2 e hmem with h1 | ⟨h2, h3⟩
    · exact .inl h1
    · right
      refine ⟨h2, ?_⟩
      rw [lookupFS_prune_not_under]
      · exact h3
      · cases hu : underEqB p (dirname e.1) with
        | false => rfl
        | true =>
          exfalso
          rcases dirname_normal e.1 h2 with ⟨nm, _, _, hdq⟩ | ⟨pp, nm, _, _, hq2, hdq⟩
          · rw [hdq] at hu
            rw [underEqB_root_false p hp] at hu
            simp at hu
          · rw [hdq] at hu
            have hue : underEqB p e.1 = true := by
              rw [hq2]
              exact underEqB_trans p pp (pp ++ "/" ++ nm) hu (underEqB_append_right pp nm)
            rw [hue] at hkeep
            simp at hkeep

theorem hasChildFS_false_iff (fs : FS) (p : String) :
    hasChildFS fs p = false ↔ ∀ e ∈ fs.entries, childNameOf p e.1 = none := by
  unfold hasChildFS
  constructor
  · intro h e he
    cases hc : childNameOf p e.1 with
    | none => rfl
    | some nm =>
      exfalso
      have htrue : fs.entries.any (fun e => (childNameOf p e.1).isSome) = true :=
        List.any_eq_true.mpr ⟨e, he, by simp [hc]⟩
      rw [htrue] at h
      simp at h
  · intro h
    cases ha : fs.entries.any (fun e => (childNameOf p e.1).isSome) with
    | false => rfl
    | true =>
      obtain ⟨e, he, hsome⟩ := List.any_eq_true.mp ha
      rw [h e he] at hsome
      simp at hsome

theorem no_descendant_of_no_child (fs : FS) (hwf : wf fs) (p : String)
    (hp : isNormalAbs p = true) (hnc : hasChildFS fs p = false) :
    ∀ q n1, (q, n1) ∈ fs.entries → underEqB p q = true → q = p := by
  intro q n1 hmem hun
  by_contra hne
  obtain ⟨seg, m, _, hlk, _, hcn⟩ := descendant_child fs hwf p hp q n1 hmem hun hne
  have hmem2 := lookupFS_mem fs _ m hlk
  have hnone := (hasChildFS_false_iff fs p).mp hnc (p ++ "/" ++ seg, m) hmem2
  simp only [hnone] at hcn
  exact absurd hcn (by simp)

theorem no_descendant_of_file (fs : FS) (hwf : wf fs) (p : String)
    (hp : isNormalAbs p = true) (n0 : FNode) (hl : lookupFS fs p = some n0)
    (hnd : n0.isDirectory = false) :
    ∀ q n1, (q, n1) ∈ fs.entries → underEqB p q = true → q = p := by
  intro q n1 hmem hun
  by_contra hne
  obtain ⟨seg, m, hv, hlk, _, _⟩ := descendant_child fs hwf p hp q n1 hmem hun hne
  have hcm := lookupFS_mem fs _ m hlk
  have hcroot : (p ++ "/" ++ seg) ≠ "/" :=
    isNormalAbs_ne_root _ (isNormalAbs_append p seg hp hv)
  obtain ⟨_, hpar⟩ := wf_entry_normal fs hwf _ m hcm hcroot
  rw [dirname_append p seg hp hv] at hpar
  obtain ⟨pm, hpm, hpmd⟩ := option_any_elim _ hpar
  rw [hl] at hpm
  have heq : n0 = pm := by simpa using hpm
  rw [← heq] at hpmd
  rw [hpmd] at hnd
  simp at hnd

theorem readdir_name_valid (fs : FS) (hwf : wf fs) (p : String)
    (hp : isNormalAbs p = true) (q : String) (n : FNode) (hmem : (q, n) ∈ fs.entries)
    (nm : String) (hc : childNameOf p q = some nm) :
    validName nm.data = true ∧ q = p ++ "/" ++ nm := by
  have hpr := isNormalAbs_ne_root p hp
  obtain ⟨hd, hnenil, hns⟩ := childNameOf_some p q nm hpr hc
  have hq : q = p ++ "/" ++ nm := String.ext (by rw [hd, data_append_slash])
  refine ⟨?_, hq⟩
  have hqroot : q ≠ "/" := by
    intro he
    rw [he] at hd
    obtain ⟨restp, hdp, _, _⟩ := isNormalAbs_elim p hp
    rw [hdp] at hd
    have := congrArg List.length hd
    simp at this
  obtain ⟨hqn, _⟩ := wf_entry_normal fs hwf q n hmem hqroot
  obtain ⟨restq, hdq, _, hvq⟩ := isNormalAbs_elim q hqn
  obtain ⟨restp, hdp, _, _⟩ := isNormalAbs_elim p hp
  have hrq : restq = restp ++ '/' :: nm.data := by
    rw [hdq, hdp] at hd
    have h2 : '/' :: restq = '/' :: (restp ++ '/' :: nm.data) := by
      rw [hd]
      simp
    exact (List.cons.injEq _ _ _ _).mp h2 |>.2
  have hmemq : nm.data ∈ splitSlash restq := by
    rw [hrq, splitSlash_append, splitSlash_no_slash nm.data hns]
    exact List.mem_append_right _ (by simp)
  exact List.all_eq_true.mp hvq nm.data hmemq

theorem readdir_complete (fs : FS) (hwf : wf fs) (p : String)
    (hp : isNormalAbs p = true) (q : String) (n1 : FNode) (hmem : (q, n1) ∈ fs.entries)
    (hun : underEqB p q = true) (hne : q ≠ p) :
    ∃ nm, nm ∈ fs.entries.filterMap (fun e => childNameOf p e.1) ∧
      underEqB (p ++ "/" ++ nm) q = true := by
  obtain ⟨seg, m, _, hlk, hund, hcn⟩ := descendant_child fs hwf p hp q n1 hmem hun hne
  refine ⟨seg, ?_, hund⟩
  apply List.mem_filterMap.mpr
  exact ⟨(p ++ "/" ++ seg, m), lookupFS_mem fs _ m hlk, hcn⟩

/- ---------------------------------------------------------------- -/
/- Partial correctness of the remove engine on a clean filesystem:   -/
/- whenever it completes, it has removed exactly the subtree of the  -/
/- given path and reports success.                                   -/
/- ---------------------------------------------------------------- -/

theorem removeStep_clean_correct (win : Bool) :
    ∀ n : Nat,
      (∀ fs p tries r, clean fs → wf fs → isNormalAbs p = true →
        removeStep win n (.rem fs p tries) = some r → r = (prune fs p, none)) ∧
      (∀ fs p r, clean fs → wf fs → isNormalAbs p = true →
        removeStep win n (.rim fs p) = some r →
        ((∃ n0, lookupFS fs p = some n0) → r = (prune fs p, none)) ∧
        (lookupFS fs p = none → r = (fs, some (.jsError ⟨.ENOENT, "lstat"⟩)))) ∧
      (∀ fs p orig n0 r, clean fs → wf fs → isNormalAbs p = true →
        lookupFS fs p = some n0 → n0.isDirectory = true →
        removeStep win n (.rdir fs p orig) = some r → r = (prune fs p, none)) ∧
      (∀ fs p n0 r, clean fs → wf fs → isNormalAbs p = true →
        lookupFS fs p = some n0 → n0.isDirectory = true →
        removeStep win n (.rkids fs p) = some r → r = (prune fs p, none)) ∧
      (∀ fs p n0 names r, clean fs → wf fs → isNormalAbs p = true →
        lookupFS fs p = some n0 → n0.isDirectory = true →
        (∀ nm ∈ names, validName nm.data = true) →
        (∀ q n1, (q, n1) ∈ fs.entries → underEqB p q = true → q ≠ p →
          ∃ nm ∈ names, underEqB (p ++ "/" ++ nm) q = true) →
        removeStep win n (.rkidsGo fs p names) = some r → r = (prune fs p, none)) := by
  intro n
  induction n with
  | zero =>
    refine ⟨?_, ?_, ?_, ?_, ?_⟩
    · intro fs p tries r _ _ _ h
      simp [removeStep] at h
    · intro fs p r _ _ _ h
      simp [removeStep] at h
    · intro fs p orig n0 r _ _ _ _ _ h
      simp [removeStep] at h
    · intro fs p n0 r _ _ _ _ _ h
      simp [removeStep] at h
    · intro fs p n0 names r _ _ _ _ _ _ _ h
      simp [removeStep] at h
  | succ n ih =>
    obtain ⟨ihRem, ihRim, ihRdir, ihRkids, ihGo⟩ := ih
    refine ⟨?_, ?_, ?_, ?_, ?_⟩
    · -- the remove wrapper
      intro fs p tries r hc hw hn h
      simp only [removeStep] at h
      cases hrim : removeStep win n (.rim fs p) with
      | none => rw [hrim] at h; simp at h
      | some rr =>
        obtain ⟨fs', t⟩ := rr
        rw [hrim] at h
        have hR := ihRim fs p (fs', t) hc hw hn hrim
        cases t with
        | none =>
          cases hl : lookupFS fs p with
          | some n0 =>
            have heq := hR.1 ⟨n0, hl⟩
            have hr : r = (fs', none) := by simpa using h.symm
            rw [hr, heq]
          | none =>
            have heq := hR.2 hl
            have h2 := congrArg Prod.snd heq
            simp at h2
        | some t =>
          cases hl : lookupFS fs p with
          | some n0 =>
            have heq := hR.1 ⟨n0, hl⟩
            have h2 := congrArg Prod.snd heq
            simp at h2
          | none =>
            have heq := hR.2 hl
            have ht : t = .jsError ⟨.ENOENT, "lstat"⟩ := by
              have h2 := congrArg Prod.snd heq
              simpa using h2
            have hfseq : fs' = fs := by
              have h2 := congrArg Prod.fst heq
              simpa using h2
            rw [ht] at h
            simp at h
            rw [← h, hfseq, prune_absent fs hw p hn hl]
    · -- rimraf
      intro fs p r hc hw hn h
      simp only [removeStep] at h
      have hinj := findInj_of_clean fs hc FsOp.opLstat p
      cases hl : lookupFS fs p with
      | none =>
        have hls : lstatE fs p = .error ⟨.ENOENT, "lstat"⟩ := by
          unfold lstatE
          rw [hinj, hl]
        rw [hls] at h
        simp at h
        constructor
        · intro ⟨n0, hn0⟩
          exact absurd hn0 (by simp)
        · intro _
          exact h.symm
      | some n0 =>
        have hls : lstatE fs p = .ok n0 := by
          unfold lstatE
          rw [hinj, hl]
        rw [hls] at h
        simp at h
        refine ⟨fun _ => ?_, fun habs => by simp at habs⟩
        by_cases hdir : n0.isDirectory = true
        · rw [hdir] at h
          simp at h
          exact ihRdir fs p none n0 r hc hw hn hl hdir h
        · have hdir' : n0.isDirectory = false := Bool.eq_false_iff.mpr hdir
          rw [hdir'] at h
          simp at h
          have hunl : unlinkE fs p = .ok (eraseFS fs p) := by
            unfold unlinkE
            rw [findInj_of_clean fs hc, hl]
            simp [hdir']
          rw [hunl] at h
          simp at h
          have hr : r = (eraseFS fs p, none) := h.symm
          rw [hr, eraseFS_eq_prune fs p
            (fun q n1 hm hu => no_descendant_of_file fs hw p hn n0 hl hdir' q n1 hm hu)]
    · -- removeDir
      intro fs p orig n0 r hc hw hn hl hdir h
      simp only [removeStep] at h
      by_cases hch : hasChildFS fs p = true
      · have hrm : rmdirE fs p = .error ⟨.ENOTEMPTY, "rmdir"⟩ := by
          unfold rmdirE
          rw [findInj_of_clean fs hc, hl]
          simp [hdir, hch]
        rw [hrm] at h
        simp at h
        exact ihRkids fs p n0 r hc hw hn hl hdir h
      · have hch' : hasChildFS fs p = false := Bool.eq_false_iff.mpr hch
        have hrm : rmdirE fs p = .ok (eraseFS fs p) := by
          unfold rmdirE
          rw [findInj_of_clean fs hc, hl]
          simp [hdir, hch']
        rw [hrm] at h
        simp at h
        have hr : r = (eraseFS fs p, none) := h.symm
        rw [hr, eraseFS_eq_prune fs p
          (fun q n1 hm hu => no_descendant_of_no_child fs hw p hn hch' q n1 hm hu)]
    · -- rmkids: readdir then fold
      intro fs p n0 r hc hw hn hl hdir h
      simp only [removeStep] at h
      have hrd : readdirE fs p = .ok (fs.entries.filterMap (fun e => childNameOf p e.1)) := by
        unfold readdirE
        rw [findInj_of_clean fs hc, hl]
        simp [hdir]
      rw [hrd] at h
      simp at h
      apply ihGo fs p n0 _ r hc hw hn hl hdir ?_ ?_ h
      · intro nm hmem
        obtain ⟨e, he, hce⟩ := List.mem_filterMap.mp hmem
        exact (readdir_name_valid fs hw p hn e.1 e.2 (by simpa using he) nm hce).1
      · intro q n1 hm hu hne
        exact readdir_complete fs hw p hn q n1 hm hu hne
    · -- the fold over the children
      intro fs p n0 names r hc hw hn hl hdir hvalid hcomplete h
      cases names with
      | nil =>
        simp only [removeStep] at h
        have hnochild : hasChildFS fs p = false := by
          apply (hasChildFS_false_iff fs p).mpr
          intro e he
          cases hcn : childNameOf p e.1 with
          | none => rfl
          | some nm =>
            exfalso
            obtain ⟨hu, hnep⟩ := childNameOf_under p e.1 nm (isNormalAbs_ne_root p hn) hcn
            obtain ⟨nm', hmem', _⟩ := hcomplete e.1 e.2 (by simpa using he) hu hnep
            simp at hmem'
        have hrm : rmdirE fs p = .ok (eraseFS fs p) := by
          unfold rmdirE
          rw [findInj_of_clean fs hc, hl]
          simp [hdir, hnochild]
        rw [hrm] at h
        simp at h
        have hr : r = (eraseFS fs p, none) := h.symm
        rw [hr, eraseFS_eq_prune fs p
          (fun q n1 hm hu => no_descendant_of_no_child fs hw p hn hnochild q n1 hm hu)]
      | cons nm rest =>
        simp only [removeStep] at h
        have hnmv : validName nm.data = true := hvalid nm (by simp)
        have hjoin : jsJoin p nm = p ++ "/" ++ nm := jsJoin_normal p nm hn hnmv
        rw [hjoin] at h
        cases hrem : removeStep win n (.rem fs (p ++ "/" ++ nm) 3) with
        | none => rw [hrem] at h; simp at h
        | some rr =>
          obtain ⟨fs1, t1⟩ := rr
          have h1 := ihRem fs (p ++ "/" ++ nm) 3 (fs1, t1) hc hw
            (isNormalAbs_append p nm hn hnmv) hrem
          have hfs1 : fs1 = prune fs (p ++ "/" ++ nm) := congrArg Prod.fst h1
          have ht1 : t1 = none := congrArg Prod.snd h1
          subst hfs1
          subst ht1
          rw [hrem] at h
          simp at h
          have hcnorm := isNormalAbs_append p nm hn hnmv
          have hwp := wf_prune fs hw (p ++ "/" ++ nm) hcnorm
          have hcp : clean (prune fs (p ++ "/" ++ nm)) :=
            clean_prune fs hc (p ++ "/" ++ nm)
          have hlp : lookupFS (prune fs (p ++ "/" ++ nm)) p = some n0 := by
            rw [lookupFS_prune_not_under fs (p ++ "/" ++ nm) p
              (not_underEqB_append_self p nm)]
            exact hl
          have hvalid' : ∀ nm' ∈ rest, validName nm'.data = true :=
            fun nm' hm => hvalid nm' (by simp [hm])
          have hcomplete' : ∀ q n1, (q, n1) ∈ (prune fs (p ++ "/" ++ nm)).entries →
              underEqB p q = true → q ≠ p →
              ∃ nm' ∈ rest, underEqB (p ++ "/" ++ nm') q = true := by
            intro q n1 hmemp hu hne
            have hmemp' : (q, n1) ∈ fs.entries.filter
                (fun e => !(underEqB (p ++ "/" ++ nm) e.1)) := hmemp
            have hmemf : (q, n1) ∈ fs.entries := (List.mem_filter.mp hmemp').1
            have hnotc : underEqB (p ++ "/" ++ nm) q = false := by
              have h2 := (List.mem_filter.mp hmemp').2
              simpa using h2
            obtain ⟨nm', hmem', hund'⟩ := hcomplete q n1 hmemf hu hne
            rcases List.mem_cons.mp hmem' with he | hr
            · exfalso
              subst he
              rw [hnotc] at hund'
              simp at hund'
            · exact ⟨nm', hr, hund'⟩
          have hfin := ihGo (prune fs (p ++ "/" ++ nm)) p n0 rest r hcp hwp hn hlp hdir
            hvalid' hcomplete' h
          rw [hfin, prune_prune_of_under fs p (p ++ "/" ++ nm)
            (underEqB_append_right p nm)]

theorem find?_filter_key_none (l : List (String × FNode)) (f : String → Bool) (q : String)
    (hq : f q = false) :
    (l.filter (fun e => f e.1)).find? (fun e => e.1 == q) = none := by
  induction l with
  | nil => rfl
  | cons e t ih =>
    by_cases heq : e.1 = q
    · have h1 : f e.1 = false := by rw [heq]; exact hq
      simp [List.filter_cons, h1, ih]
    · have h2 : (e.1 == q) = false := by simp [heq]
      by_cases hf : f e.1 = true
      · simp [List.filter_cons, hf, List.find?, h2, ih]
      · have h3 : f e.1 = false := Bool.eq_false_iff.mpr hf
        simp [List.filter_cons, h3, ih]

theorem lookupFS_prune_self (fs : FS) (p : String) : lookupFS (prune fs p) p = none := by
  show ((fs.entries.filter (fun e => !(underEqB p e.1))).find? (fun e => e.1 == p)).map
    (fun e => e.2) = none
  rw [find?_filter_key_none fs.entries (fun x => !(underEqB p x)) p (by simp [underEqB_refl])]
  rfl

/-- On a clean filesystem, removing an absent path reports success and
changes nothing: rimraf's lstat throws ENOENT and the remove wrapper
turns not-found into success. -/
theorem remove_absent_step (win : Bool) (n tries : Nat) (fs : FS) (p : String)
    (hc : clean fs) (hl : lookupFS fs p = none) :
    removeStep win (n + 2) (.rem fs p tries) = some (fs, none) := by
  have hls : lstatE fs p = .error ⟨.ENOENT, "lstat"⟩ := by
    unfold lstatE
    rw [findInj_of_clean fs hc, hl]
  simp only [removeStep]
  rw [hls]
  simp

/- ---------------------------------------------------------------- -/
/- Claim theorems.                                                   -/
/- ---------------------------------------------------------------- -/

/-- C1: with no injected platform errors, remove of an absent path
succeeds with the filesystem unchanged (whatever the platform and retry
budget); and every completed remove on a clean well-formed filesystem
reports success having removed exactly the subtree of the path, so a
second remove of the same path finds it absent and succeeds as well.
The remove wrapper is modelled from the spec (src/nextra/remove.js is
not among the sources); rimraf and its helpers are embedded from
util.js. -/
theorem C1_remove_absent_idempotent :
    (∀ (fs : FS) (p : String) (n : Nat) (win : Bool) (tries : Nat), clean fs →
      lookupFS fs p = none →
      removeStep win (n + 2) (.rem fs p tries) = some (fs, none)) ∧
    (∀ (fs : FS) (p : String) (win : Bool) (n : Nat) (r : FS × Option Thrown),
      clean fs → wf fs → isNormalAbs p = true →
      remove win n fs p = some r →
      r.2 = none ∧ ∀ m r', remove win m r.1 p = some r' → r' = (r.1, none)) := by
  constructor
  · intro fs p n win tries hc hl
    exact remove_absent_step win n tries fs p hc hl
  · intro fs p win n r hc hw hn h
    have hr := (removeStep_clean_correct win n).1 fs p 3 r hc hw hn h
    constructor
    · rw [hr]
    · intro m r' h'
      have habs : lookupFS r.1 p = none := by
        rw [hr]
        exact lookupFS_prune_self fs p
      have hc' : clean r.1 := by
        rw [hr]
        exact clean_prune fs hc p
      cases m with
      | zero =>
        unfold remove at h'
        simp [removeStep] at h'
      | succ m1 =>
        cases m1 with
        | zero =>
          unfold remove at h'
          simp [removeStep] at h'
        | succ m2 =>
          have hstep := remove_absent_step win m2 3 r.1 p hc' habs
          unfold remove at h'
          rw [hstep] at h'
          simpa using h'.symm

/-- C1 (witness): removing the absent path /zzz succeeds; the completed
removal of /r reports success; removing /r again (now absent) succeeds
as well. -/
theorem C1_witness :
    removeStep false 5 (.rem exScanFS "/zzz" 3) = some (exScanFS, none) ∧
    ((prune exScanFS "/r", none) : FS × Option Thrown).2 = none ∧
    removeStep false 30 (.rem (prune exScanFS "/r") "/r" 3) =
      some (prune exScanFS "/r", none) := by
  have h2 := C1_remove_absent_idempotent.2 exScanFS "/r" false 30
    (prune exScanFS "/r", none) rfl (by decide) (by decide) (by decide)
  refine ⟨C1_remove_absent_idempotent.1 exScanFS "/zzz" 3 false 3 rfl rfl, h2.1, ?_⟩
  exact C1_remove_absent_idempotent.1 (prune exScanFS "/r") "/r" 28 false 3 rfl (by decide)

/-- C7 (amended): rimraf and removeDir propagate unchanged every error
whose class is none of busy/locked (EBUSY, EPERM), not-empty, exists,
not-found, is-a-directory, or not-a-directory; an EISDIR unlink failure
is diverted into directory removal instead of being propagated, and an
ENOTDIR failure of the directory delete is replaced by the error that
triggered the fallback — a null throw when rimraf saw a directory
directly; a not-empty failure of a directory delete on a clean
filesystem is recovered by removing the children and never surfaces. -/
theorem C7_unrecognized_propagation :
    (∀ (win : Bool) (n : Nat) (fs : FS) (p : String) (e : JsError),
      findInj fs .opLstat p = some e →
      e.code ≠ .EPERM → e.code ≠ .EBUSY → e.code ≠ .ENOTEMPTY → e.code ≠ .EEXIST →
      e.code ≠ .ENOENT →
      removeStep win (n + 2) (.rem fs p 3) = some (fs, some (.jsError e))) ∧
    (∀ (win : Bool) (n : Nat) (fs : FS) (p : String) (e : JsError) (n0 : FNode),
      findInj fs .opLstat p = none → lookupFS fs p = some n0 → n0.isDirectory = false →
      findInj fs .opUnlink p = some e →
      e.code ≠ .EPERM → e.code ≠ .EISDIR → e.code ≠ .EBUSY → e.code ≠ .ENOTEMPTY →
      e.code ≠ .EEXIST → e.code ≠ .ENOENT →
      removeStep win (n + 2) (.rem fs p 3) = some (fs, some (.jsError e))) ∧
    (∀ (win : Bool) (n : Nat) (fs : FS) (p : String) (e : JsError) (n0 : FNode),
      findInj fs .opLstat p = none → lookupFS fs p = some n0 → n0.isDirectory = true →
      findInj fs .opRmdir p = some e →
      e.code ≠ .ENOTEMPTY → e.code ≠ .EEXIST → e.code ≠ .EPERM → e.code ≠ .ENOTDIR →
      e.code ≠ .EBUSY → e.code ≠ .ENOENT →
      removeStep win (n + 3) (.rem fs p 3) = some (fs, some (.jsError e))) ∧
    (∀ (win : Bool) (n : Nat) (fs : FS) (p : String) (e : JsError) (n0 : FNode),
      findInj fs .opLstat p = none → lookupFS fs p = some n0 → n0.isDirectory = true →
      findInj fs .opRmdir p = some e → e.code = .ENOTDIR →
      removeStep win (n + 3) (.rem fs p 3) = some (fs, some .jsNull)) ∧
    (∀ (win : Bool) (fs : FS) (p : String) (n0 : FNode) (n : Nat) (r : FS × Option Thrown),
      clean fs → wf fs → isNormalAbs p = true →
      lookupFS fs p = some n0 → n0.isDirectory = true → hasChildFS fs p = true →
      remove win n fs p = some r → r = (prune fs p, none)) := by
  refine ⟨?_, ?_, ?_, ?_, ?_⟩
  · intro win n fs p e hinj h1 h2 h3 h4 h5
    have hls : lstatE fs p = .error e := by
      unfold lstatE
      rw [hinj]
    simp only [removeStep]
    rw [hls]
    simp [h1, h2, h3, h5]
  · intro win n fs p e n0 hinjl hl hdir hinju h1 h2 h3 h4 h5 h6
    have hls : lstatE fs p = .ok n0 := by
      unfold lstatE
      rw [hinjl, hl]
    have hunl : unlinkE fs p = .error e := by
      unfold unlinkE
      rw [hinju]
    simp only [removeStep]
    rw [hls, hunl]
    simp [hdir, h1, h2, h3, h4, h6]
  · intro win n fs p e n0 hinjl hl hdir hinjr h1 h2 h3 h4 h5 h6
    have hrm : rmdirE fs p = .error e := by
      unfold rmdirE
      rw [hinjr]
    have hls : lstatE fs p = .ok n0 := by
      unfold lstatE
      rw [hinjl, hl]
    simp only [removeStep]
    rw [hls, hrm]
    simp [hdir, h1, h2, h3, h4, h5, h6]
  · intro win n fs p e n0 hinjl hl hdir hinjr hcode
    have hrm : rmdirE fs p = .error e := by
      unfold rmdirE
      rw [hinjr]
    have hls : lstatE fs p = .ok n0 := by
      unfold lstatE
      rw [hinjl, hl]
    have h1 : e.code ≠ .ENOTEMPTY := by rw [hcode]; simp
    have h2 : e.code ≠ .EEXIST := by rw [hcode]; simp
    have h3 : e.code ≠ .EPERM := by rw [hcode]; simp
    simp only [removeStep]
    rw [hls, hrm]
    simp [hdir, h1, h2, h3, hcode]
  · intro win fs p n0 n r hc hw hn hl hdir hch h
    exact (removeStep_clean_correct win n).1 fs p 3 r hc hw hn h

/-- C7 (witness): concrete instantiations — an EACCES lstat failure and
an EINVAL rmdir failure propagate unchanged, an ENOTDIR rmdir failure
becomes a null throw, and a non-empty directory is removed successfully
with the not-empty recovery never surfacing. -/
theorem C7_witness :
    removeStep false 5 (.rem ⟨[("/", dirNode)], [(.opLstat, "/x", ⟨.EACCES, "m"⟩)]⟩ "/x" 3) =
      some (⟨[("/", dirNode)], [(.opLstat, "/x", ⟨.EACCES, "m"⟩)]⟩,
        some (.jsError ⟨.EACCES, "m"⟩)) ∧
    removeStep false 6 (.rem ⟨[("/", dirNode), ("/d", dirNode)],
        [(.opRmdir, "/d", ⟨.EINVAL, "m"⟩)]⟩ "/d" 3) =
      some (⟨[("/", dirNode), ("/d", dirNode)], [(.opRmdir, "/d", ⟨.EINVAL, "m"⟩)]⟩,
        some (.jsError ⟨.EINVAL, "m"⟩)) ∧
    removeStep false 6 (.rem exNotDirFS "/d" 3) = some (exNotDirFS, some .jsNull) ∧
    ((prune exScanFS "/r", none) : FS × Option Thrown) = (prune exScanFS "/r", none) := by
  refine ⟨?_, ?_, ?_, ?_⟩
  · exact C7_unrecognized_propagation.1 false 3 _ "/x" ⟨.EACCES, "m"⟩ rfl
      (by decide) (by decide) (by decide) (by decide) (by decide)
  · exact C7_unrecognized_propagation.2.2.1 false 3 _ "/d" ⟨.EINVAL, "m"⟩ dirNode rfl rfl
      rfl rfl (by decide) (by decide) (by decide) (by decide) (by decide) (by decide)
  · exact C7_unrecognized_propagation.2.2.2.1 false 3 exNotDirFS "/d" ⟨.ENOTDIR, "boom"⟩
      dirNode rfl rfl rfl rfl rfl
  · exact C7_unrecognized_propagation.2.2.2.2 false exScanFS "/r" dirNode 30
      (prune exScanFS "/r", none) rfl (by decide) (by decide) rfl rfl (by decide) (by decide)

/-- C2: scanDeep does not increment the level by exactly one per
recursion level: the source's increment of the mutable `level` inside
the Promise.all map callback bumps it once per sibling, so the second
child of `/r` is visited at level 2 instead of 1 and, with depthLimit 2,
its child `/r/b/g` — an entry at depth 2, which the claim says must be
recorded — is absent from the scan result. -/
theorem C2_scanDeep_sibling_level_bug :
    scanDeep exScanFS ⟨none, some 2⟩ 20 "/r" [] 0 =
      some (.ok [("/r", dirNode), ("/r/a", dirNode), ("/r/a/f", ⟨.file "x", 420⟩),
                 ("/r/b", dirNode)]) ∧
    lookupFS exScanFS "/r/b/g" = some ⟨.file "y", 420⟩ ∧
    underEqB "/r/b" "/r/b/g" = true ∧
    underEqB "/r" "/r/b" = true := by decide

/-- C3: the cycle guard misses a source directory that sits directly
under the root: isSrcKid "/a" "/a/x" is false although "/a/x" is a
strict descendant of "/a" (the split on the doubled separator throws and
the catch yields false), so copy("/a", "/a/x") creates the destination
inside the source before a deeper recursive call finally throws
CyclicCopy — the copy does modify the filesystem.  The guard also fires
for "/x/a/b/c", which is not inside "/a/b".  For sources deeper than one
level the guard works as claimed. -/
theorem C3_cycle_guard_bug :
    isSrcKid "/" "/a/b" "/a/b/c" = true ∧
    isSrcKid "/" "/a" "/a/x" = false ∧
    underEqB "/a" "/a/x" = true ∧
    isSrcKid "/" "/a/b" "/x/a/b/c" = true ∧
    underEqB "/a/b" "/x/a/b/c" = false ∧
    ncp "/" 10 exRootA "/a" "/a/x" uDefault =
      some (⟨[("/", dirNode), ("/a", dirNode), ("/a/x", dirNode)], []⟩,
        some (.generic cyclicMessage)) := by decide

/-- C5 (counterexample): copying a relative symlink between roots at
different depths does not preserve resolvability — copy("/a/b", "/dst")
recreates link -> "../f" verbatim, so the source link resolved to the
existing file /a/f while the copied link resolves to the absent /f. -/
theorem C5_counterexample :
    ncp "/" 10 exLinkFS "/a/b" "/dst" uDefault = some (exLinkFS', none) ∧
    readlinkE exLinkFS "/a/b/link" = .ok "../f" ∧
    resolveLink exLinkFS 40 "/a/b/link" = .ok "/a/f" ∧
    lookupFS exLinkFS "/a/f" = some ⟨.file "hello", 420⟩ ∧
    readlinkE exLinkFS' "/dst/link" = .ok "../f" ∧
    resolveLink exLinkFS' 40 "/dst/link" = .error ⟨.ENOENT, "stat"⟩ := by decide

/-- C5 (amended): with dereference off, copyLink recreates the
destination link with exactly the source link's target text — it applies
no destination-relative rewrite (the symlinkPaths rewrite belongs to the
symlink-creation API, not to copy), so resolvability from the new
directory is preserved only when the verbatim target happens to resolve
there. -/
theorem C5_copyLink_verbatim :
    ∀ (fs : FS) (src tgt : String) (o : COpts) (t : String) (fs1 : FS),
      clean fs → o.dereference = false → readlinkE fs src = .ok t →
      isWritable fs tgt = true → symlinkE fs t tgt = .ok fs1 →
      copyLinkU fs src tgt o = (fs1, none) ∧ readlinkE fs1 tgt = .ok t := by
  intro fs src tgt o t fs1 hclean hderef hread hwrit hsym
  have hinj := findInj_of_clean fs hclean
  have hlook : lookupFS fs tgt = none := by
    unfold isWritable at hwrit
    unfold lstatE at hwrit
    rw [hinj] at hwrit
    cases hl : lookupFS fs tgt with
    | none => rfl
    | some n => rw [hl] at hwrit; simp at hwrit
  have hfs1 : fs1 = insertFS fs tgt ⟨.symlink t, 511⟩ := by
    unfold symlinkE at hsym
    rw [hinj, hlook] at hsym
    cases hp : lookupFS fs (dirname tgt) with
    | none => rw [hp] at hsym; exact absurd hsym (by simp)
    | some parent =>
      rw [hp] at hsym
      by_cases hd : parent.isDirectory
      · simp only [hd, if_true] at hsym
        exact (Except.ok.injEq _ _ ▸ hsym.symm : _)
      · simp only [hd] at hsym
        simp at hsym
  constructor
  · unfold copyLinkU
    rw [hread]
    simp only [hderef, if_false, Bool.false_eq_true, hwrit, if_true]
    rw [hsym]
  · subst hfs1
    unfold readlinkE
    rw [findInj_of_clean _ (clean_insertFS fs hclean tgt ⟨.symlink t, 511⟩)]
    rw [lookupFS_insertFS_self]

/-- C5 (witness): the amended theorem applied to the concrete link
filesystem, copying /a/b/link to /a/link2. -/
theorem C5_copyLink_verbatim_witness :
    copyLinkU exLinkFS "/a/b/link" "/a/link2" oPlain =
      (insertFS exLinkFS "/a/link2" ⟨.symlink "../f", 511⟩, none) ∧
    readlinkE (insertFS exLinkFS "/a/link2" ⟨.symlink "../f", 511⟩) "/a/link2" =
      .ok "../f" :=
  C5_copyLink_verbatim exLinkFS "/a/b/link" "/a/link2" oPlain "../f"
    (insertFS exLinkFS "/a/link2" ⟨.symlink "../f", 511⟩) rfl rfl rfl rfl rfl

/-- C6: replaceEsc does not escape the replacement text: in the
JavaScript replacement string the doubled dollar collapses back to a
single dollar, so replaceEsc is the identity on every string, and a
destination root containing a substitution pattern (here dollar
ampersand) is expanded when startCopy rewrites the source prefix —
"/src/f" maps to "/a/srcb/f" instead of the verbatim "/a$&b/f" the
claim requires. -/
theorem C6_replaceEsc_not_escaping :
    (∀ s, replaceEsc s = s) ∧
    jsReplaceFirst "/src/f" "/src" (replaceEsc "/a$&b") = "/a/srcb/f" ∧
    ("/a/srcb/f" : String) ≠ "/a$&b/f" :=
  ⟨replaceEsc_id, by decide, by decide⟩

/-- C7 (counterexample): an unrecognized not-a-directory error from the
directory delete is not propagated unchanged — removeDir replaces it
with its originalEr argument, which is null when rimraf dispatched a
directory directly, so remove rejects with a null throw instead of the
injected ENOTDIR error object. -/
theorem C7_counterexample :
    remove false 10 exNotDirFS "/d" = some (exNotDirFS, some .jsNull) ∧
    findInj exNotDirFS .opRmdir "/d" = some ⟨.ENOTDIR, "boom"⟩ ∧
    Thrown.jsNull ≠ Thrown.jsError ⟨.ENOTDIR, "boom"⟩ := by decide

/-- C8: when the entry has vanished between the failed attempt and the
retry, fixWinEPERM does not complete successfully: the source's
conditional throw `er.code === 'ENOENT' ? null : err` throws null on
ENOENT, so the chmod ENOENT makes fixWinEPERM (and remove with it)
reject with a null throw rather than resolve. -/
theorem C8_vanished_entry_rejects :
    removeStep true 5 (.fixW exWinFS "/f" ⟨.EPERM, "locked"⟩) =
      some (exWinFS, some .jsNull) ∧
    remove true 10 exWinFS "/f" = some (exWinFS, some .jsNull) := by decide

/-- C10: isWritable resolves to true exactly when lstat fails with
ENOENT, to false when lstat succeeds or fails with any other code (the
embedding is a total boolean function — the promise never rejects), and
copyFile therefore treats a destination whose lstat fails for another
reason (here EACCES) as an existing destination: with overwrite off and
errorOnExist on it raises destination-exists instead of surfacing the
stat error. -/
theorem C10_isWritable_enoent_only :
    (∀ fs p, isWritable fs p = true ↔
      ∃ e, lstatE fs p = .error e ∧ e.code = .ENOENT) ∧
    (∀ fs p n, lstatE fs p = .ok n → isWritable fs p = false) ∧
    (∀ fs p e, lstatE fs p = .error e → e.code ≠ .ENOENT → isWritable fs p = false) ∧
    (∀ fs src tgt (o : COpts) e, lstatE fs tgt = .error e → e.code ≠ .ENOENT →
      o.overwrite = false → o.errorOnExist = true →
      copyFileU fs src tgt o = (fs, some (.generic (tgt ++ " already exists")))) := by
  have hfalse : ∀ fs p e, lstatE fs p = .error e → e.code ≠ .ENOENT →
      isWritable fs p = false := by
    intro fs p e h hne
    unfold isWritable
    rw [h]
    simp [hne]
  refine ⟨?_, ?_, hfalse, ?_⟩
  · intro fs p
    unfold isWritable
    cases h : lstatE fs p with
    | ok n => simp
    | error e =>
      simp only [beq_iff_eq]
      constructor
      · intro hc
        exact ⟨e, rfl, hc⟩
      · intro ⟨e', he', hc⟩
        cases he'
        exact hc
  · intro fs p n h
    unfold isWritable
    rw [h]
  · intro fs src tgt o e h hne hov hex
    unfold copyFileU
    rw [hfalse fs tgt e h hne, hov, hex]
    simp

/-- C10 (witness): the destination /t has an injected EACCES on lstat;
isWritable reports it as existing and copyFile raises
destination-exists. -/
theorem C10_witness :
    isWritable exAccesFS "/t" = false ∧
    copyFileU exAccesFS "/s" "/t" oNoOverwriteErr =
      (exAccesFS, some (.generic ("/t" ++ " already exists"))) :=
  ⟨C10_isWritable_enoent_only.2.2.1 exAccesFS "/t" ⟨.EACCES, "denied"⟩ rfl (by decide),
   C10_isWritable_enoent_only.2.2.2 exAccesFS "/s" "/t" oNoOverwriteErr
     ⟨.EACCES, "denied"⟩ rfl (by decide) rfl rfl⟩

/-- C4: the engine's copyFile follows the claimed overwrite policy: an
absent target receives the source bytes directly; an existing
(non-directory) target with overwrite on is deleted and then receives
the copy; with overwrite off and errorOnExist on the call fails with the
destination-exists error; with both off it succeeds without touching
anything. -/
theorem C4_copyFile_policy :
    ∀ (fs : FS) (src tgt : String) (o : COpts) (c : String) (m : Nat),
      clean fs → lookupFS fs src = some ⟨.file c, m⟩ →
      ((lookupFS fs tgt = none →
          copyFileU fs src tgt o = (insertFS fs tgt ⟨.file c, m⟩, none)) ∧
       (∀ tn : FNode, lookupFS fs tgt = some tn → tn.isDirectory = false →
          src ≠ tgt → o.overwrite = true →
          copyFileU fs src tgt o = (insertFS (eraseFS fs tgt) tgt ⟨.file c, m⟩, none)) ∧
       (∀ tn : FNode, lookupFS fs tgt = some tn → o.overwrite = false →
          o.errorOnExist = true →
          copyFileU fs src tgt o = (fs, some (.generic (tgt ++ " already exists")))) ∧
       (∀ tn : FNode, lookupFS fs tgt = some tn → o.overwrite = false →
          o.errorOnExist = false → copyFileU fs src tgt o = (fs, none))) := by
  intro fs src tgt o c m hclean hsrc
  have hinj := findInj_of_clean fs hclean
  have hwritOf : ∀ tn : FNode, lookupFS fs tgt = some tn → isWritable fs tgt = false := by
    intro tn htgt
    unfold isWritable lstatE
    rw [hinj, htgt]
  refine ⟨?_, ?_, ?_, ?_⟩
  · intro htgt
    have hwrit : isWritable fs tgt = true := by
      unfold isWritable lstatE
      rw [hinj, htgt]
      rfl
    unfold copyFileU
    rw [hwrit]
    simp [copyFileRaw, hinj, hsrc, htgt]
  · intro tn htgt hdir hne hov
    have herase := findInj_of_clean _ (clean_eraseFS fs hclean tgt)
    unfold copyFileU
    rw [hwritOf tn htgt, hov]
    simp [unlinkE, copyFileRaw, hinj, htgt, hdir, herase,
      lookupFS_eraseFS_ne fs tgt src hne, hsrc, lookupFS_eraseFS_self]
  · intro tn htgt hov hex
    unfold copyFileU
    rw [hwritOf tn htgt, hov, hex]
    simp
  · intro tn htgt hov hex
    unfold copyFileU
    rw [hwritOf tn htgt, hov, hex]
    simp

/-- C4 (witness): the policy applied to the concrete two-file
filesystem, in the overwrite and the errorOnExist configurations. -/
theorem C4_witness :
    copyFileU exTwoFiles "/s" "/t" oPlain =
      (insertFS (eraseFS exTwoFiles "/t") "/t" ⟨.file "new", 420⟩, none) ∧
    copyFileU exTwoFiles "/s" "/t" oNoOverwriteErr =
      (exTwoFiles, some (.generic ("/t" ++ " already exists"))) :=
  ⟨(C4_copyFile_policy exTwoFiles "/s" "/t" oPlain "new" 420 rfl rfl).2.1
      ⟨.file "old", 384⟩ rfl rfl (by decide) rfl,
   (C4_copyFile_policy exTwoFiles "/s" "/t" oNoOverwriteErr "new" 420 rfl rfl).2.2.1
      ⟨.file "old", 384⟩ rfl rfl rfl⟩

/- ---------------------------------------------------------------- -/
/- String-layer lemmas for the copy walk's destination computation.  -/
/- ---------------------------------------------------------------- -/

theorem getSub_no_dollar (matched pre post subst : List Char)
    (hc : subst.contains '$' = false) :
    getSub matched pre post subst = subst := by
  suffices h : forall (k : Nat) (l : List Char), l.length <= k -> l.contains '$' = false ->
      getSub matched pre post l = l from h subst.length subst (le_refl _) hc
  intro k
  induction k with
  | zero =>
    intro l hl _
    have : l = [] := List.length_eq_zero.mp (Nat.le_zero.mp hl)
    subst this
    rfl
  | succ k ih =>
    intro l hl hlc
    cases l with
    | nil => rfl
    | cons c t =>
      have hcne : ¬ c = '$' := by
        intro he
        subst he
        simp [List.contains_cons] at hlc
      have ht : t.contains '$' = false := by
        simp [List.contains_cons] at hlc
        simp [hlc.2]
      have hlt : t.length <= k := by
        simpa using hl
      rw [getSub.eq_def]
      simp only []
      rw [if_neg hcne, ih t hlt ht]

theorem isNormalAbs_data_ne_nil (p : String) (h : isNormalAbs p = true) :
    p.data ≠ [] := by
  obtain ⟨rest, hd, _, _⟩ := isNormalAbs_elim p h
  rw [hd]
  simp

theorem targetOf_prefix (o : COpts) (X : List Char)
    (hcp : o.currentPath.data ≠ []) (hd : o.targetPath.data.contains '$' = false)
    (s : String) (hs : s.data = o.currentPath.data ++ X) :
    (targetOf o s).data = o.targetPath.data ++ X := by
  unfold targetOf jsReplaceFirst
  rw [replaceEsc_id]
  show jsReplaceFirstData o.currentPath.data o.targetPath.data [] s.data = _
  cases hcd : o.currentPath.data with
  | nil => exact absurd hcd hcp
  | cons c ct =>
    rw [hs, hcd]
    show jsReplaceFirstData (c :: ct) o.targetPath.data [] (c :: (ct ++ X)) = _
    have hpre : (c :: ct).isPrefixOf (c :: (ct ++ X)) = true := by
      apply List.isPrefixOf_iff_prefix.mpr
      exact ⟨X, by simp⟩
    simp only [jsReplaceFirstData, hpre, if_true]
    have hdrop : (c :: (ct ++ X)).drop (c :: ct).length = X := by
      show ((c :: ct) ++ X).drop (c :: ct).length = X
      exact List.drop_left _ _
    rw [hdrop, getSub_no_dollar _ _ _ _ hd]
    simp

theorem targetOf_data (o : COpts) (hs : saneC o) (s : String) (X : List Char)
    (hsX : s.data = o.currentPath.data ++ X) :
    (targetOf o s).data = o.targetPath.data ++ X :=
  targetOf_prefix o X (isNormalAbs_data_ne_nil _ hs.1) hs.2.2.1 s hsX

theorem underEqB_elim_suffix (p q : String) (h : underEqB p q = true) :
    ∃ X, q.data = p.data ++ X ∧ (X = [] ∨ ∃ r, X = '/' :: r) := by
  rcases (underEqB_iff p q).mp h with he | ⟨r, hr⟩
  · exact ⟨[], by rw [← he]; simp, .inl rfl⟩
  · exact ⟨'/' :: r, hr, .inr ⟨r, rfl⟩⟩

theorem basename_append (p nm : String) (hnm : nm.data.contains '/' = false) :
    basename (p ++ "/" ++ nm) = nm := by
  unfold basename
  rw [data_append_slash, splitSlash_append, splitSlash_no_slash nm.data hnm,
    List.getLast?_concat]
  rfl

theorem basename_of_normal (s : String) (h : isNormalAbs s = true) :
    validName (basename s).data = true := by
  rcases dirname_normal s h with ⟨nm, hv, hq, _⟩ | ⟨p, nm, _, hv, hq, _⟩
  · rw [hq]
    have hb : basename ("/" ++ nm) = nm := by
      unfold basename
      have hdata : ("/" ++ nm).data = '/' :: nm.data := rfl
      rw [hdata, splitSlash_slash_cons,
        splitSlash_no_slash nm.data (validName_no_slash nm.data hv)]
      rfl
    rw [hb]
    exact hv
  · rw [hq, basename_append p nm (validName_no_slash nm.data hv)]
    exact hv

theorem isNormalAbs_no_trailing (t : String) (h : isNormalAbs t = true) (a : List Char)
    (he : t.data = a ++ ['/']) : False := by
  obtain ⟨rest, hd, hne, hv⟩ := isNormalAbs_elim t h
  cases a with
  | nil =>
    rw [hd] at he
    have : rest = [] := by simpa using he
    exact hne this
  | cons c a2 =>
    rw [hd, List.cons_append] at he
    have hrest : rest = a2 ++ ['/'] := ((List.cons.injEq _ _ _ _).mp he).2
    have hsp : splitSlash rest = splitSlash a2 ++ [[]] := by
      rw [hrest, show a2 ++ ['/'] = a2 ++ '/' :: [] from rfl, splitSlash_append]
      rfl
    have hvnil : validName [] = true := by
      rw [hsp, List.all_append] at hv
      have := ((Bool.and_eq_true _ _).mp hv).2
      simpa using this
    simp [validName] at hvnil

theorem isNormalAbs_transfer (cp tp s q : String) (hcp : isNormalAbs cp = true)
    (htp : isNormalAbs tp = true) (X : List Char)
    (hX : X = [] ∨ ∃ r, X = '/' :: r)
    (hs : s.data = cp.data ++ X) (hns : isNormalAbs s = true)
    (hq : q.data = tp.data ++ X) : isNormalAbs q = true := by
  rcases hX with rfl | ⟨r, rfl⟩
  · have : q = tp := String.ext (by rw [hq]; simp)
    rw [this]
    exact htp
  · obtain ⟨restc, hdc, _, _⟩ := isNormalAbs_elim cp hcp
    obtain ⟨rests, hds, _, hvs⟩ := isNormalAbs_elim s hns
    obtain ⟨restt, hdt, _, hvt⟩ := isNormalAbs_elim tp htp
    have hrs : rests = restc ++ '/' :: r := by
      rw [hds, hdc, List.cons_append] at hs
      exact ((List.cons.injEq _ _ _ _).mp hs).2
    have hvr : (splitSlash r).all validName = true := by
      rw [hrs, splitSlash_append, List.all_append] at hvs
      exact ((Bool.and_eq_true _ _).mp hvs).2
    have hdq : q.data = '/' :: (restt ++ '/' :: r) := by
      rw [hq, hdt, List.cons_append]
    apply isNormalAbs_intro q (restt ++ '/' :: r) hdq (by simp)
    rw [splitSlash_append, List.all_append, hvt, hvr]
    rfl

theorem underEqB_antisymm (a b : String) (h1 : underEqB a b = true)
    (h2 : underEqB b a = true) : a = b := by
  rcases (underEqB_iff a b).mp h1 with he | ⟨s, hs⟩
  · exact he
  · rcases (underEqB_iff b a).mp h2 with he | ⟨t, ht⟩
    · exact he.symm
    · exfalso
      rw [hs] at ht
      have := congrArg List.length ht
      simp at this

theorem write_not_in_src (cp tp : String) (hcp : isNormalAbs cp = true)
    (htp : isNormalAbs tp = true)
    (h1 : underEqB cp tp = false) (h2 : underEqB tp cp = false)
    (X : List Char) (hX : X = [] ∨ ∃ r, X = '/' :: r)
    (q : String) (hq : q.data = tp.data ++ X) : underEqB cp q = false := by
  apply Bool.eq_false_iff.mpr
  intro hcq
  rcases (underEqB_iff cp q).mp hcq with he | ⟨w, hw⟩
  · rcases hX with rfl | ⟨r, rfl⟩
    · have hqtp : q = tp := String.ext (by rw [hq]; simp)
      rw [he, hqtp, underEqB_refl] at h1
      exact Bool.noConfusion h1
    · have : underEqB tp cp = true :=
        (underEqB_iff tp cp).mpr (.inr ⟨r, by rw [he]; exact hq⟩)
      rw [this] at h2
      exact Bool.noConfusion h2
  · have hpc : (cp.data ++ ['/']) <+: q.data := ⟨w, by rw [hw]; simp⟩
    have hpt : tp.data <+: q.data := ⟨X, hq.symm⟩
    rcases List.prefix_or_prefix_of_prefix hpc hpt with hcle | htle
    · have : underEqB cp tp = true := by
        unfold underEqB
        apply (Bool.or_eq_true _ _).mpr
        right
        exact List.isPrefixOf_iff_prefix.mpr hcle
      rw [this] at h1
      exact Bool.noConfusion h1
    · rcases List.prefix_concat_iff.mp htle with heq | hple
      · exact isNormalAbs_no_trailing tp htp cp.data heq
      · obtain ⟨Y, hY⟩ := hple
        have hXY : Y ++ '/' :: w = X := by
          have hmid : tp.data ++ (Y ++ '/' :: w) = tp.data ++ X := by
            rw [← List.append_assoc, hY, ← hw, hq]
          exact List.append_cancel_left hmid
        rcases hX with rfl | ⟨r, rfl⟩
        · exact absurd hXY (by simp)
        · cases Y with
          | nil =>
            have hctp : cp = tp := String.ext (by rw [← hY]; simp)
            rw [hctp, underEqB_refl] at h1
            exact Bool.noConfusion h1
          | cons y Y2 =>
            have hy : y = '/' := by
              rw [List.cons_append] at hXY
              exact ((List.cons.injEq _ _ _ _).mp hXY).1
            have : underEqB tp cp = true := by
              apply (underEqB_iff tp cp).mpr
              right
              exact ⟨Y2, by rw [← hY, hy]⟩
            rw [this] at h2
            exact Bool.noConfusion h2

theorem between_child (base it r s2 : String) (hit : it.data.contains '/' = false)
    (hbr : underEqB base r = true) (hrne : r ≠ base)
    (hrs : underEqB r s2 = true) (hcs : underEqB (base ++ "/" ++ it) s2 = true) :
    underEqB (base ++ "/" ++ it) r = true := by
  rcases (underEqB_iff base r).mp hbr with he | ⟨X, hX⟩
  · exact absurd he.symm hrne
  rcases (underEqB_iff r s2).mp hrs with he | ⟨Y, hY⟩
  · rw [← he] at hcs
    exact hcs
  rcases (underEqB_iff (base ++ "/" ++ it) s2).mp hcs with he2 | ⟨Z, hZ⟩
  · exfalso
    have hceq : (base ++ "/" ++ it).data = r.data ++ '/' :: Y := by
      rw [he2]
      exact hY
    rw [data_append_slash, hX, List.append_assoc] at hceq
    have hmid := List.append_cancel_left hceq
    rw [List.cons_append] at hmid
    have hit2 : it.data = X ++ '/' :: Y := ((List.cons.injEq _ _ _ _).mp hmid).2
    have : it.data.contains '/' = true := by
      rw [hit2]
      simp
    rw [this] at hit
    exact Bool.noConfusion hit
  · have hkey : X ++ '/' :: Y = it.data ++ '/' :: Z := by
      have ha : s2.data = base.data ++ '/' :: (X ++ '/' :: Y) := by
        rw [hY, hX]
        simp
      have hb : s2.data = base.data ++ '/' :: (it.data ++ '/' :: Z) := by
        rw [hZ, data_append_slash]
        simp
      have := ha.symm.trans hb
      have := List.append_cancel_left this
      exact ((List.cons.injEq _ _ _ _).mp this).2
    have hpX : X <+: (it.data ++ '/' :: Z) := ⟨'/' :: Y, hkey⟩
    have hpI : it.data <+: (it.data ++ '/' :: Z) := ⟨'/' :: Z, rfl⟩
    rcases List.prefix_or_prefix_of_prefix hpX hpI with hXI | hIX
    · obtain ⟨D, hD⟩ := hXI
      cases D with
      | nil =>
        have hr : r = base ++ "/" ++ it := by
          apply String.ext
          rw [hX, data_append_slash, ← hD]
          simp
        rw [hr]
        exact underEqB_refl _
      | cons d D2 =>
        exfalso
        have h3 := hkey
        rw [← hD, List.append_assoc] at h3
        have := List.append_cancel_left h3
        rw [List.cons_append] at this
        have hd : d = '/' := (((List.cons.injEq _ _ _ _).mp this).1).symm
        have : it.data.contains '/' = true := by
          rw [← hD, hd]
          simp
        rw [this] at hit
        exact Bool.noConfusion hit
    · obtain ⟨D, hD⟩ := hIX
      cases D with
      | nil =>
        have hr : r = base ++ "/" ++ it := by
          apply String.ext
          rw [hX, data_append_slash, ← hD]
          simp
        rw [hr]
        exact underEqB_refl _
      | cons d D2 =>
        have hd : d = '/' := by
          have h3 := hkey
          rw [← hD, List.append_assoc] at h3
          have := List.append_cancel_left h3
          rw [List.cons_append] at this
          exact ((List.cons.injEq _ _ _ _).mp this).1
        apply (underEqB_iff _ _).mpr
        right
        refine ⟨D2, ?_⟩
        rw [hX, ← hD, hd, data_append_slash]
        simp

theorem under_child_cases (base it r : String) (hit : it.data.contains '/' = false)
    (h : underEqB r (base ++ "/" ++ it) = true) :
    r = base ++ "/" ++ it ∨ underEqB r base = true := by
  rcases (underEqB_iff r _).mp h with he | ⟨w, hw⟩
  · exact .inl he
  · right
    have hpr : r.data <+: (base ++ "/" ++ it).data := ⟨'/' :: w, hw.symm⟩
    have hpb : base.data <+: (base ++ "/" ++ it).data :=
      ⟨'/' :: it.data, (data_append_slash base it).symm⟩
    rcases List.prefix_or_prefix_of_prefix hpr hpb with hrb | hbr
    · obtain ⟨D, hD⟩ := hrb
      cases D with
      | nil =>
        have hr : r = base := String.ext (by rw [← hD]; simp)
        rw [hr]
        exact underEqB_refl base
      | cons d D2 =>
        have hd : d = '/' := by
          have h3 : (base ++ "/" ++ it).data = r.data ++ ((d :: D2) ++ '/' :: it.data) := by
            rw [data_append_slash, ← hD]
            simp
          rw [hw] at h3
          have := List.append_cancel_left h3
          rw [List.cons_append] at this
          exact (((List.cons.injEq _ _ _ _).mp this).1).symm
        apply (underEqB_iff r base).mpr
        right
        exact ⟨D2, by rw [← hD, hd]⟩
    · obtain ⟨D, hD⟩ := hbr
      cases D with
      | nil =>
        have hr : r = base := String.ext (by rw [← hD]; simp)
        rw [hr]
        exact underEqB_refl base
      | cons d D2 =>
        exfalso
        have h3 : (base ++ "/" ++ it).data = base.data ++ ((d :: D2) ++ '/' :: w) := by
          rw [hw, ← hD]
          simp
        rw [data_append_slash] at h3
        have := List.append_cancel_left h3
        rw [List.cons_append] at this
        have hit2 : it.data = D2 ++ '/' :: w := ((List.cons.injEq _ _ _ _).mp this).2
        have : it.data.contains '/' = true := by
          rw [hit2]
          simp
        rw [this] at hit
        exact Bool.noConfusion hit


/- ---------------------------------------------------------------- -/
/- Filesystem-operation lemmas for the copy walk.                    -/
/- ---------------------------------------------------------------- -/

theorem lookupFS_insertFS_ne (fs : FS) (p q : String) (h : q ≠ p) (n : FNode) :
    lookupFS (insertFS fs p n) q = lookupFS fs q := by
  have hpq : (p == q) = false := beq_eq_false_iff_ne.mpr (Ne.symm h)
  show ((fs.entries.filter (fun e => e.1 != p) ++ [(p, n)]).find? (fun e => e.1 == q)).map
    (fun e => e.2) = _
  rw [List.find?_append, find?_filter_ne fs.entries p q h]
  unfold lookupFS
  cases hf : fs.entries.find? (fun e => e.1 == q) with
  | some x => rfl
  | none => simp [List.find?, hpq]

theorem find?_key_map_pres (l : List (String × FNode))
    (f : String × FNode → String × FNode) (hf : ∀ e, (f e).1 = e.1) (q : String) :
    ((l.map f).find? (fun e => e.1 == q)) = (l.find? (fun e => e.1 == q)).map f := by
  induction l with
  | nil => rfl
  | cons a t ih =>
    simp only [List.map_cons, List.find?]
    rw [hf a]
    cases haq : (a.1 == q) with
    | true => rfl
    | false => exact ih

theorem keysNormal_insertFS (fs : FS) (h : keysNormal fs) (p : String)
    (hp : isNormalAbs p = true) (n : FNode) : keysNormal (insertFS fs p n) := by
  intro e he
  rcases List.mem_append.mp he with h1 | h2
  · exact h e (List.mem_filter.mp h1).1
  · have : e = (p, n) := by simpa using h2
    rw [this]
    exact .inr hp

theorem keysNormal_eraseFS (fs : FS) (h : keysNormal fs) (p : String) :
    keysNormal (eraseFS fs p) :=
  fun e he => h e (List.mem_filter.mp he).1

theorem keysNormal_of_wf (fs : FS) (h : wf fs) : keysNormal fs := by
  intro e he
  rcases h.2.2 e he with h1 | h2
  · exact .inl h1
  · exact .inr h2.1

theorem unlinkE_ok_elim (fs : FS) (p : String) (fs2 : FS)
    (h : unlinkE fs p = .ok fs2) : fs2 = eraseFS fs p := by
  unfold unlinkE at h
  cases hfi : findInj fs .opUnlink p with
  | some e => rw [hfi] at h; simp at h
  | none =>
    rw [hfi] at h
    cases hl : lookupFS fs p with
    | none => rw [hl] at h; simp at h
    | some n =>
      rw [hl] at h
      simp at h
      by_cases hd : n.isDirectory = true
      · rw [if_pos hd] at h; simp at h
      · rw [if_neg hd] at h
        simp at h
        exact h.symm

theorem mkdirE_ok_elim (fs : FS) (p : String) (m : Nat) (fs2 : FS)
    (h : mkdirE fs p m = .ok fs2) : fs2 = insertFS fs p ⟨.directory, m⟩ := by
  unfold mkdirE at h
  cases hfi : findInj fs .opMkdir p with
  | some e => rw [hfi] at h; simp at h
  | none =>
    rw [hfi] at h
    cases hl : lookupFS fs p with
    | some n => rw [hl] at h; simp at h
    | none =>
      rw [hl] at h
      cases hlp : lookupFS fs (dirname p) with
      | none => rw [hlp] at h; simp at h
      | some parent =>
        rw [hlp] at h
        simp at h
        by_cases hd : parent.isDirectory = true
        · rw [if_pos hd] at h
          simp at h
          exact h.symm
        · rw [if_neg hd] at h; simp at h

theorem symlinkE_ok_elim (fs : FS) (target p : String) (fs2 : FS)
    (h : symlinkE fs target p = .ok fs2) : fs2 = insertFS fs p ⟨.symlink target, 511⟩ := by
  unfold symlinkE at h
  cases hfi : findInj fs .opSymlink p with
  | some e => rw [hfi] at h; simp at h
  | none =>
    rw [hfi] at h
    cases hl : lookupFS fs p with
    | some n => rw [hl] at h; simp at h
    | none =>
      rw [hl] at h
      cases hlp : lookupFS fs (dirname p) with
      | none => rw [hlp] at h; simp at h
      | some parent =>
        rw [hlp] at h
        simp at h
        by_cases hd : parent.isDirectory = true
        · rw [if_pos hd] at h
          simp at h
          exact h.symm
        · rw [if_neg hd] at h; simp at h

theorem copyFileRaw_ok_insert (fs : FS) (s d : String) (fs2 : FS)
    (h : copyFileRaw fs s d = .ok fs2) : ∃ nd, fs2 = insertFS fs d nd := by
  unfold copyFileRaw at h
  cases hfi : findInj fs .opCopyFile d with
  | some e => rw [hfi] at h; simp at h
  | none =>
    rw [hfi] at h
    cases hl : lookupFS fs s with
    | none => rw [hl] at h; simp at h
    | some n =>
      rw [hl] at h
      simp at h
      cases hmap : (lookupFS fs d).map FNode.isDirectory with
      | some b =>
        cases b with
        | true => rw [hmap] at h; simp at h
        | false =>
          rw [hmap] at h
          simp at h
          cases hk : n.kind with
          | file c => rw [hk] at h; simp at h; exact ⟨_, h.symm⟩
          | directory => rw [hk] at h; simp at h
          | symlink t => rw [hk] at h; simp at h; exact ⟨_, h.symm⟩
          | charDev => rw [hk] at h; simp at h; exact ⟨_, h.symm⟩
          | blockDev => rw [hk] at h; simp at h; exact ⟨_, h.symm⟩
      | none =>
        rw [hmap] at h
        simp at h
        cases hk : n.kind with
        | file c => rw [hk] at h; simp at h; exact ⟨_, h.symm⟩
        | directory => rw [hk] at h; simp at h
        | symlink t => rw [hk] at h; simp at h; exact ⟨_, h.symm⟩
        | charDev => rw [hk] at h; simp at h; exact ⟨_, h.symm⟩
        | blockDev => rw [hk] at h; simp at h; exact ⟨_, h.symm⟩

theorem readdirE_ok_elim (fs : FS) (p : String) (items : List String)
    (h : readdirE fs p = .ok items) :
    items = fs.entries.filterMap (fun e => childNameOf p e.1) := by
  unfold readdirE at h
  cases hfi : findInj fs .opReaddir p with
  | some e => rw [hfi] at h; simp at h
  | none =>
    rw [hfi] at h
    cases hl : lookupFS fs p with
    | none => rw [hl] at h; simp at h
    | some n =>
      rw [hl] at h
      simp at h
      by_cases hd : n.isDirectory = true
      · rw [if_pos hd] at h
        simp at h
        exact h.symm
      · rw [if_neg hd] at h; simp at h

theorem chmodE_ok_elim (fs : FS) (p : String) (m : Nat) (fs2 : FS)
    (h : chmodE fs p m = .ok fs2) :
    fs2.injected = fs.injected ∧
    (∀ q, q ≠ p → lookupFS fs2 q = lookupFS fs q) ∧
    (∀ e ∈ fs2.entries, ∃ e2 ∈ fs.entries, e.1 = e2.1) := by
  unfold chmodE at h
  cases hfi : findInj fs .opChmod p with
  | some e => rw [hfi] at h; simp at h
  | none =>
    rw [hfi] at h
    cases hl : lookupFS fs p with
    | none => rw [hl] at h; simp at h
    | some n =>
      rw [hl] at h
      injection h with h2
      rw [← h2]
      refine ⟨rfl, ?_, ?_⟩
      · intro q hq
        show ((fs.entries.map (fun e =>
            if e.1 == p then (e.1, (⟨e.2.kind, m⟩ : FNode)) else e)).find?
            (fun e => e.1 == q)).map (fun e => e.2) = lookupFS fs q
        rw [find?_key_map_pres fs.entries _
          (fun e => by by_cases hep : (e.1 == p) = true <;> simp [hep]) q]
        unfold lookupFS
        cases hf : fs.entries.find? (fun e => e.1 == q) with
        | none => rfl
        | some x =>
          have hx : x.1 = q := by
            have := List.find?_some hf
            simpa using this
          have hxp : ¬ x.1 = p := by
            rw [hx]
            exact hq
          simp [hxp]
      · intro e he
        obtain ⟨e2, he2, hfe⟩ := List.mem_map.mp he
        refine ⟨e2, he2, ?_⟩
        rw [← hfe]
        by_cases hep : (e2.1 == p) = true <;> simp [hep]

/- ---------------------------------------------------------------- -/
/- copyPost combinators.                                             -/
/- ---------------------------------------------------------------- -/

theorem copyPost_refl (o : COpts) (fs0 : FS) (src : String) (fs : FS)
    (hk : keysNormal fs) : copyPost o fs0 src fs fs :=
  ⟨rfl, hk, fun _ hq => absurd rfl hq⟩

theorem copyPost_trans (o : COpts) (fs0 : FS) (src : String) (fs fs1 fs2 : FS)
    (h1 : copyPost o fs0 src fs fs1) (h2 : copyPost o fs0 src fs1 fs2) :
    copyPost o fs0 src fs fs2 := by
  refine ⟨h2.1.trans h1.1, h2.2.1, ?_⟩
  intro q hq
  by_cases hmid : lookupFS fs1 q = lookupFS fs q
  · refine h2.2.2 q ?_
    rw [hmid]
    exact hq
  · exact h1.2.2 q hmid

theorem copyWrite_lift (o : COpts) (fs0 : FS) (base it : String)
    (hit : it.data.contains '/' = false)
    (hfb : o.filter base o.targetPath = true) (q : String)
    (h : copyWrite o fs0 (base ++ "/" ++ it) q) : copyWrite o fs0 base q := by
  obtain ⟨s2, hus, hns, hchain, hshape⟩ := h
  refine ⟨s2, underEqB_trans base _ s2 (underEqB_append_right base it) hus, hns, ?_, hshape⟩
  intro r hbr hrs
  by_cases hre : r = base
  · rw [hre]
    exact hfb
  · exact hchain r (between_child base it r s2 hit hbr hre hrs hus) hrs

theorem copyPost_lift (o : COpts) (fs0 : FS) (base it : String) (fs fs2 : FS)
    (hit : it.data.contains '/' = false)
    (hfb : o.filter base o.targetPath = true)
    (h : copyPost o fs0 (base ++ "/" ++ it) fs fs2) : copyPost o fs0 base fs fs2 :=
  ⟨h.1, h.2.1, fun q hq => copyWrite_lift o fs0 base it hit hfb q (h.2.2 q hq)⟩

theorem agree_preserved (o : COpts) (hsane : saneC o) (fs0 fsa fsb : FS) (src : String)
    (hag : ∀ q, underEqB o.currentPath q = true → lookupFS fsa q = lookupFS fs0 q)
    (hpost : copyPost o fs0 src fsa fsb)
    (hsrc : underEqB o.currentPath src = true) :
    ∀ q, underEqB o.currentPath q = true → lookupFS fsb q = lookupFS fs0 q := by
  intro q hq
  by_cases hch : lookupFS fsb q = lookupFS fsa q
  · rw [hch]
    exact hag q hq
  · exfalso
    obtain ⟨s2, hus, hns, _, hshape⟩ := hpost.2.2 q hch
    have hcps : underEqB o.currentPath s2 = true := underEqB_trans _ _ _ hsrc hus
    obtain ⟨X, hsX, hXb⟩ := underEqB_elim_suffix o.currentPath s2 hcps
    rcases hshape with hq1 | ⟨hq2, _⟩
    · have hqd : q.data = o.targetPath.data ++ X := by
        rw [hq1]
        exact targetOf_data o hsane s2 X hsX
      have := write_not_in_src o.currentPath o.targetPath hsane.1 hsane.2.1
        hsane.2.2.2.1 hsane.2.2.2.2.1 X hXb q hqd
      rw [this] at hq
      exact Bool.noConfusion hq
    · have hqd : q.data = o.targetPath.data ++ (X ++ '/' :: (basename s2).data) := by
        rw [hq2, data_append_slash, targetOf_data o hsane s2 X hsX]
        simp
      have hXb2 : (X ++ '/' :: (basename s2).data) = [] ∨
          ∃ r, (X ++ '/' :: (basename s2).data) = '/' :: r := by
        rcases hXb with rfl | ⟨r, rfl⟩
        · exact .inr ⟨(basename s2).data, by simp⟩
        · exact .inr ⟨r ++ '/' :: (basename s2).data, by simp⟩
      have := write_not_in_src o.currentPath o.targetPath hsane.1 hsane.2.1
        hsane.2.2.2.1 hsane.2.2.2.2.1 _ hXb2 q hqd
      rw [this] at hq
      exact Bool.noConfusion hq

/-- The copyWrite fact for writing at the computed target of the call's
own source path. -/
theorem copyWrite_self (o : COpts) (fs0 : FS) (src : String)
    (hnorm : isNormalAbs src = true) (hfil : o.filter src o.targetPath = true) :
    copyWrite o fs0 src (targetOf o src) := by
  refine ⟨src, underEqB_refl src, hnorm, ?_, .inl rfl⟩
  intro r h1 h2
  rw [underEqB_antisymm r src h2 h1]
  exact hfil

/-- The copyWrite fact for the basename-redirected target of the call's
own (non-directory) source path. -/
theorem copyWrite_self_redirect (o : COpts) (fs0 : FS) (src : String)
    (hnorm : isNormalAbs src = true) (hfil : o.filter src o.targetPath = true)
    (n0 : FNode) (hl : lookupFS fs0 src = some n0) (hnd : n0.isDirectory = false) :
    copyWrite o fs0 src (targetOf o src ++ "/" ++ basename src) := by
  refine ⟨src, underEqB_refl src, hnorm, ?_, .inr ⟨rfl, n0, hl, hnd⟩⟩
  intro r h1 h2
  rw [underEqB_antisymm r src h2 h1]
  exact hfil

theorem copyPost_insert (o : COpts) (fs0 : FS) (src : String) (fs : FS) (T : String)
    (nd : FNode) (hkn : keysNormal fs) (hTn : isNormalAbs T = true)
    (hcw : copyWrite o fs0 src T) : copyPost o fs0 src fs (insertFS fs T nd) := by
  refine ⟨rfl, keysNormal_insertFS fs hkn T hTn nd, ?_⟩
  intro q hq
  by_cases hqT : q = T
  · rw [hqT]
    exact hcw
  · exact absurd (lookupFS_insertFS_ne fs T q hqT nd) hq

theorem copyPost_erase (o : COpts) (fs0 : FS) (src : String) (fs : FS) (T : String)
    (hkn : keysNormal fs) (hcw : copyWrite o fs0 src T) :
    copyPost o fs0 src fs (eraseFS fs T) := by
  refine ⟨rfl, keysNormal_eraseFS fs hkn T, ?_⟩
  intro q hq
  by_cases hqT : q = T
  · rw [hqT]
    exact hcw
  · exact absurd (lookupFS_eraseFS_ne fs T q hqT) hq

theorem copyPost_chmod (o : COpts) (fs0 : FS) (src : String) (fs : FS) (T : String)
    (m : Nat) (fs2 : FS) (h : chmodE fs T m = .ok fs2)
    (hkn : keysNormal fs) (hcw : copyWrite o fs0 src T) :
    copyPost o fs0 src fs fs2 := by
  obtain ⟨hinj, hne, hmem⟩ := chmodE_ok_elim fs T m fs2 h
  refine ⟨hinj, ?_, ?_⟩
  · intro e he
    obtain ⟨e2, he2, hk⟩ := hmem e he
    rw [hk]
    exact hkn e2 he2
  · intro q hq
    by_cases hqT : q = T
    · rw [hqT]
      exact hcw
    · exact absurd (hne q hqT) hq


/-- A name readdir returns for a normalized directory path is a valid
component, provided every key of the map is normalized (no
well-formedness of the parent chain is needed). -/
theorem readdir_items_valid_of_normal (fs : FS) (hk : keysNormal fs) (p : String)
    (hp : isNormalAbs p = true) (nm : String)
    (hmem : nm ∈ fs.entries.filterMap (fun e => childNameOf p e.1)) :
    validName nm.data = true := by
  obtain ⟨e, he, hc⟩ := List.mem_filterMap.mp hmem
  have hproot := isNormalAbs_ne_root p hp
  obtain ⟨hd, hne, hns⟩ := childNameOf_some p e.1 nm hproot hc
  rcases hk e he with h1 | h2
  · exfalso
    rw [h1] at hd
    obtain ⟨restp, hdp, _, _⟩ := isNormalAbs_elim p hp
    rw [hdp] at hd
    have := congrArg List.length hd
    simp at this
  · obtain ⟨restq, hdq, _, hvq⟩ := isNormalAbs_elim e.1 h2
    obtain ⟨restp, hdp, _, _⟩ := isNormalAbs_elim p hp
    have hrq : restq = restp ++ '/' :: nm.data := by
      rw [hdq, hdp] at hd
      have h3 : '/' :: restq = '/' :: (restp ++ '/' :: nm.data) := by
        rw [hd]
        simp
      exact ((List.cons.injEq _ _ _ _).mp h3).2
    have hmemq : nm.data ∈ splitSlash restq := by
      rw [hrq, splitSlash_append, splitSlash_no_slash nm.data hns]
      exact List.mem_append_right _ (by simp)
    exact List.all_eq_true.mp hvq nm.data hmemq

/-- copyPost for the leaf branch of startCopy: whatever path copyLink or
copyFile takes, the only destination entry it can touch is the computed
(possibly basename-redirected) target. -/
theorem copyLeaf_post (o : COpts) (hsane : saneC o) (fs0 fs : FS) (src : String)
    (hkn : keysNormal fs)
    (hin : underEqB o.currentPath src = true) (hnorm : isNormalAbs src = true)
    (hfilT : o.filter src o.targetPath = true)
    (stats : FNode) (hl0 : lookupFS fs0 src = some stats)
    (hnd : stats.isDirectory = false)
    (T : String) (hT : T = targetOf o src ∨ T = targetOf o src ++ "/" ++ basename src)
    (res : FS × Option Thrown)
    (hres : res = copyLinkU fs src T o ∨ res = copyFileU fs src T o) :
    copyPost o fs0 src fs res.1 := by
  have htn : isNormalAbs (targetOf o src) = true := by
    obtain ⟨X, hsX, hXb⟩ := underEqB_elim_suffix o.currentPath src hin
    exact isNormalAbs_transfer o.currentPath o.targetPath src (targetOf o src)
      hsane.1 hsane.2.1 X hXb hsX hnorm (targetOf_data o hsane src X hsX)
  have hTn : isNormalAbs T = true := by
    rcases hT with rfl | rfl
    · exact htn
    · exact isNormalAbs_append _ _ htn (basename_of_normal src hnorm)
  have hcw : copyWrite o fs0 src T := by
    rcases hT with rfl | rfl
    · exact copyWrite_self o fs0 src hnorm hfilT
    · exact copyWrite_self_redirect o fs0 src hnorm hfilT stats hl0 hnd
  rcases hres with rfl | rfl
  · unfold copyLinkU
    cases hrl : readlinkE fs src with
    | error e =>
      simp only [hrl]
      exact copyPost_refl o fs0 src fs hkn
    | ok rp0 =>
      simp only [hrl]
      rw [hsane.2.2.2.2.2]
      simp only [Bool.false_eq_true, if_false]
      by_cases hwrt : isWritable fs T = true
      · rw [if_pos hwrt]
        cases hsym : symlinkE fs rp0 T with
        | ok fs2 =>
          simp only [hsym]
          rw [symlinkE_ok_elim fs rp0 T fs2 hsym]
          exact copyPost_insert o fs0 src fs T _ hkn hTn hcw
        | error e =>
          simp only [hsym]
          exact copyPost_refl o fs0 src fs hkn
      · rw [if_neg hwrt]
        cases hrt : readlinkE fs T with
        | error e =>
          simp only [hrt]
          exact copyPost_refl o fs0 src fs hkn
        | ok td0 =>
          simp only [hrt]
          by_cases heq : td0 = rp0
          · rw [if_pos heq]
            exact copyPost_refl o fs0 src fs hkn
          · rw [if_neg heq]
            cases hun : unlinkE fs T with
            | error e =>
              simp only [hun]
              exact copyPost_refl o fs0 src fs hkn
            | ok fs1 =>
              simp only [hun]
              have hfs1 : fs1 = eraseFS fs T := unlinkE_ok_elim fs T fs1 hun
              have post1 : copyPost o fs0 src fs fs1 := by
                rw [hfs1]
                exact copyPost_erase o fs0 src fs T hkn hcw
              cases hsym : symlinkE fs1 rp0 T with
              | ok fs2 =>
                simp only [hsym]
                rw [symlinkE_ok_elim fs1 rp0 T fs2 hsym]
                exact copyPost_trans o fs0 src fs fs1 _ post1
                  (copyPost_insert o fs0 src fs1 T _ post1.2.1 hTn hcw)
              | error e =>
                simp only [hsym]
                exact post1
  · unfold copyFileU
    by_cases hwrt : isWritable fs T = true
    · rw [if_pos hwrt]
      cases hcf : copyFileRaw fs src T with
      | ok fs2 =>
        simp only [hcf]
        obtain ⟨nd, hnd2⟩ := copyFileRaw_ok_insert fs src T fs2 hcf
        rw [hnd2]
        exact copyPost_insert o fs0 src fs T nd hkn hTn hcw
      | error e =>
        simp only [hcf]
        exact copyPost_refl o fs0 src fs hkn
    · rw [if_neg hwrt]
      by_cases hov : o.overwrite = true
      · rw [if_pos hov]
        cases hun : unlinkE fs T with
        | error e =>
          simp only [hun]
          exact copyPost_refl o fs0 src fs hkn
        | ok fs1 =>
          simp only [hun]
          have hfs1 : fs1 = eraseFS fs T := unlinkE_ok_elim fs T fs1 hun
          have post1 : copyPost o fs0 src fs fs1 := by
            rw [hfs1]
            exact copyPost_erase o fs0 src fs T hkn hcw
          cases hcf : copyFileRaw fs1 src T with
          | ok fs2 =>
            simp only [hcf]
            obtain ⟨nd, hnd2⟩ := copyFileRaw_ok_insert fs1 src T fs2 hcf
            rw [hnd2]
            exact copyPost_trans o fs0 src fs fs1 _ post1
              (copyPost_insert o fs0 src fs1 T nd post1.2.1 hTn hcw)
          | error e =>
            simp only [hcf]
            exact post1
      · rw [if_neg hov]
        by_cases hee : o.errorOnExist = true
        · rw [if_pos hee]
          exact copyPost_refl o fs0 src fs hkn
        · rw [if_neg hee]
          exact copyPost_refl o fs0 src fs hkn


/- ---------------------------------------------------------------- -/
/- Write-set invariant of the copy walk: a completed call only ever   -/
/- writes the computed targets of filter-accepted source paths.       -/
/- ---------------------------------------------------------------- -/

theorem copyStep_writes (o : COpts) (hsane : saneC o) (fs0 : FS) :
    ∀ n : Nat,
      (∀ fs src r2, fs.injected = [] → keysNormal fs →
        (∀ q, underEqB o.currentPath q = true → lookupFS fs q = lookupFS fs0 q) →
        underEqB o.currentPath src = true → isNormalAbs src = true →
        (∀ r3, underEqB o.currentPath r3 = true → underEqB r3 src = true → r3 ≠ src →
          o.filter r3 o.targetPath = true) →
        copyStep o n (.start fs src) = some r2 →
        copyPost o fs0 src fs r2.1) ∧
      (∀ fs src target stats r2, fs.injected = [] → keysNormal fs →
        (∀ q, underEqB o.currentPath q = true → lookupFS fs q = lookupFS fs0 q) →
        underEqB o.currentPath src = true → isNormalAbs src = true →
        (∀ r3, underEqB o.currentPath r3 = true → underEqB r3 src = true →
          o.filter r3 o.targetPath = true) →
        target = targetOf o src →
        copyStep o n (.dir fs src target stats) = some r2 →
        copyPost o fs0 src fs r2.1) ∧
      (∀ fs base items r2, fs.injected = [] → keysNormal fs →
        (∀ q, underEqB o.currentPath q = true → lookupFS fs q = lookupFS fs0 q) →
        underEqB o.currentPath base = true → isNormalAbs base = true →
        (∀ r3, underEqB o.currentPath r3 = true → underEqB r3 base = true →
          o.filter r3 o.targetPath = true) →
        (∀ it ∈ items, validName it.data = true) →
        copyStep o n (.children fs base items) = some r2 →
        copyPost o fs0 base fs r2.1) := by
  intro n
  induction n with
  | zero =>
    refine ⟨?_, ?_, ?_⟩
    · intro fs src r2 _ _ _ _ _ _ h
      exact absurd h (by simp [copyStep])
    · intro fs src target stats r2 _ _ _ _ _ _ _ h
      exact absurd h (by simp [copyStep])
    · intro fs base items r2 _ _ _ _ _ _ _ h
      exact absurd h (by simp [copyStep])
  | succ n ih =>
    obtain ⟨ihs, ihd, ihc⟩ := ih
    refine ⟨?_, ?_, ?_⟩
    · -- startCopy
      intro fs src r2 hinj hkn hag hin hnorm hanc h
      simp only [copyStep] at h
      by_cases hfil : o.filter src o.targetPath = false
      · rw [if_pos hfil] at h
        have hr := (Option.some.injEq _ _).mp h
        rw [← hr]
        exact copyPost_refl o fs0 src fs hkn
      · rw [if_neg hfil] at h
        have hfilT : o.filter src o.targetPath = true := by
          cases hfv : o.filter src o.targetPath
          · exact absurd hfv hfil
          · rfl
        rw [hsane.2.2.2.2.2, if_neg Bool.false_ne_true] at h
        have hfi : findInj fs .opLstat src = none := by
          unfold findInj
          rw [hinj]
          rfl
        have hls : lookupFS fs src = lookupFS fs0 src := hag src hin
        cases hl0 : lookupFS fs0 src with
        | none =>
          rw [show lstatE fs src = .error ⟨.ENOENT, "lstat"⟩ from by
            unfold lstatE
            rw [hfi, hls, hl0]] at h
          simp at h
          rw [← h]
          exact copyPost_refl o fs0 src fs hkn
        | some stats =>
          rw [show lstatE fs src = .ok stats from by
            unfold lstatE
            rw [hfi, hls, hl0]] at h
          simp only [] at h
          by_cases hdir : stats.isDirectory = true
          · rw [if_pos hdir] at h
            refine ihd fs src _ stats r2 hinj hkn hag hin hnorm ?_ rfl h
            intro r3 h1 h2
            by_cases hre : r3 = src
            · rw [hre]
              exact hfilT
            · exact hanc r3 h1 h2 hre
          · rw [if_neg hdir] at h
            have hdirF : stats.isDirectory = false := by
              cases hsd : stats.isDirectory
              · rfl
              · exact absurd hsd hdir
            by_cases hleaf : (stats.isFile || stats.isCharacterDevice ||
                stats.isBlockDevice || stats.isSymbolicLink) = true
            · rw [if_pos hleaf] at h
              have hTshape : ∀ T2, (match statE fs (jsReplaceFirst src o.currentPath
                    (replaceEsc o.targetPath)) with
                  | Except.ok t =>
                    if t.isDirectory = true then
                      jsJoin (jsReplaceFirst src o.currentPath (replaceEsc o.targetPath))
                        (basename src)
                    else jsReplaceFirst src o.currentPath (replaceEsc o.targetPath)
                  | Except.error _ =>
                    jsReplaceFirst src o.currentPath (replaceEsc o.targetPath)) = T2 →
                  T2 = targetOf o src ∨ T2 = targetOf o src ++ "/" ++ basename src := by
                intro T2 hT2
                have htn : isNormalAbs (targetOf o src) = true := by
                  obtain ⟨X, hsX, hXb⟩ := underEqB_elim_suffix o.currentPath src hin
                  exact isNormalAbs_transfer o.currentPath o.targetPath src (targetOf o src)
                    hsane.1 hsane.2.1 X hXb hsX hnorm (targetOf_data o hsane src X hsX)
                cases hst : statE fs (jsReplaceFirst src o.currentPath
                    (replaceEsc o.targetPath)) with
                | error e =>
                  rw [hst] at hT2
                  simp at hT2
                  exact .inl hT2.symm
                | ok t =>
                  rw [hst] at hT2
                  simp at hT2
                  by_cases htd : t.isDirectory = true
                  · rw [if_pos htd] at hT2
                    right
                    rw [← hT2]
                    show jsJoin (targetOf o src) (basename src) = _
                    exact jsJoin_normal _ _ htn (basename_of_normal src hnorm)
                  · rw [if_neg htd] at hT2
                    exact .inl hT2.symm
              by_cases hsym : stats.isSymbolicLink = true
              · rw [if_pos hsym] at h
                have hr := (Option.some.injEq _ _).mp h
                rw [← hr]
                exact copyLeaf_post o hsane fs0 fs src hkn hin hnorm hfilT stats hl0 hdirF
                  _ (hTshape _ rfl) _ (.inl rfl)
              · rw [if_neg hsym] at h
                have hr := (Option.some.injEq _ _).mp h
                rw [← hr]
                exact copyLeaf_post o hsane fs0 fs src hkn hin hnorm hfilT stats hl0 hdirF
                  _ (hTshape _ rfl) _ (.inr rfl)
            · rw [if_neg hleaf] at h
              have hr := (Option.some.injEq _ _).mp h
              rw [← hr]
              exact copyPost_refl o fs0 src fs hkn
    · -- copyDir body
      intro fs src target stats r2 hinj hkn hag hin hnorm hanc htarg h
      simp only [copyStep] at h
      by_cases hkid : isSrcKid o.cwd src target = true
      · rw [if_pos hkid] at h
        have hr := (Option.some.injEq _ _).mp h
        rw [← hr]
        exact copyPost_refl o fs0 src fs hkn
      · rw [if_neg hkid] at h
        have hTn : isNormalAbs target = true := by
          obtain ⟨X, hsX, hXb⟩ := underEqB_elim_suffix o.currentPath src hin
          rw [htarg]
          exact isNormalAbs_transfer o.currentPath o.targetPath src (targetOf o src)
            hsane.1 hsane.2.1 X hXb hsX hnorm (targetOf_data o hsane src X hsX)
        have hcw : copyWrite o fs0 src target := by
          rw [htarg]
          exact copyWrite_self o fs0 src hnorm (hanc src hin (underEqB_refl src))
        by_cases hwrt : isWritable fs target = true
        · rw [if_pos hwrt] at h
          cases hmk : mkdirE fs target stats.mode with
          | error e =>
            rw [hmk] at h
            simp at h
            rw [← h]
            exact copyPost_refl o fs0 src fs hkn
          | ok fs1 =>
            rw [hmk] at h
            simp only [] at h
            have post1 : copyPost o fs0 src fs fs1 := by
              rw [mkdirE_ok_elim fs target stats.mode fs1 hmk]
              exact copyPost_insert o fs0 src fs target _ hkn hTn hcw
            cases hch : chmodE fs1 target stats.mode with
            | error e =>
              rw [hch] at h
              simp at h
              rw [← h]
              exact post1
            | ok fs2 =>
              rw [hch] at h
              simp only [] at h
              have post12 : copyPost o fs0 src fs fs2 :=
                copyPost_trans o fs0 src fs fs1 fs2 post1
                  (copyPost_chmod o fs0 src fs1 target stats.mode fs2 hch post1.2.1 hcw)
              cases hrd : readdirE fs2 src with
              | error e =>
                rw [hrd] at h
                simp at h
                rw [← h]
                exact post12
              | ok items =>
                rw [hrd] at h
                simp only [] at h
                have hitems : ∀ it ∈ items, validName it.data = true := by
                  intro it hmem
                  rw [readdirE_ok_elim fs2 src items hrd] at hmem
                  exact readdir_items_valid_of_normal fs2 post12.2.1 src hnorm it hmem
                have hag2 : ∀ q, underEqB o.currentPath q = true →
                    lookupFS fs2 q = lookupFS fs0 q :=
                  agree_preserved o hsane fs0 fs fs2 src hag post12 hin
                have hinj2 : fs2.injected = [] := by
                  rw [post12.1, hinj]
                exact copyPost_trans o fs0 src fs fs2 r2.1 post12
                  (ihc fs2 src items r2 hinj2 post12.2.1 hag2 hin hnorm hanc hitems h)
        · rw [if_neg hwrt] at h
          simp only [] at h
          cases hrd : readdirE fs src with
          | error e =>
            rw [hrd] at h
            simp at h
            rw [← h]
            exact copyPost_refl o fs0 src fs hkn
          | ok items =>
            rw [hrd] at h
            simp only [] at h
            have hitems : ∀ it ∈ items, validName it.data = true := by
              intro it hmem
              rw [readdirE_ok_elim fs src items hrd] at hmem
              exact readdir_items_valid_of_normal fs hkn src hnorm it hmem
            exact ihc fs src items r2 hinj hkn hag hin hnorm hanc hitems h
    · -- children fold
      intro fs base items r2 hinj hkn hag hin hnorm hanc hvalid h
      cases items with
      | nil =>
        simp only [copyStep] at h
        have hr := (Option.some.injEq _ _).mp h
        rw [← hr]
        exact copyPost_refl o fs0 base fs hkn
      | cons it rest =>
        simp only [copyStep] at h
        have hitv : validName it.data = true := hvalid it (by simp)
        have hj : jsJoin base it = base ++ "/" ++ it := jsJoin_normal base it hnorm hitv
        rw [hj] at h
        have hchildanc : ∀ r3, underEqB o.currentPath r3 = true →
            underEqB r3 (base ++ "/" ++ it) = true → r3 ≠ base ++ "/" ++ it →
            o.filter r3 o.targetPath = true := by
          intro r3 h1 h2 hne
          rcases under_child_cases base it r3 (validName_no_slash it.data hitv) h2 with
            he | hrb
          · exact absurd he hne
          · exact hanc r3 h1 hrb
        cases hcs : copyStep o n (.start fs (base ++ "/" ++ it)) with
        | none =>
          rw [hcs] at h
          exact absurd h (by simp)
        | some rc =>
          rw [hcs] at h
          have postc : copyPost o fs0 (base ++ "/" ++ it) fs rc.1 :=
            ihs fs (base ++ "/" ++ it) rc hinj hkn hag
              (underEqB_trans _ _ _ hin (underEqB_append_right base it))
              (isNormalAbs_append base it hnorm hitv) hchildanc hcs
          have postc2 : copyPost o fs0 base fs rc.1 :=
            copyPost_lift o fs0 base it fs rc.1 (validName_no_slash it.data hitv)
              (hanc base hin (underEqB_refl base)) postc
          obtain ⟨fsc, tc⟩ := rc
          cases tc with
          | some terr =>
            simp at h
            rw [← h]
            exact postc2
          | none =>
            simp only [] at h
            have hinjc : fsc.injected = [] := by
              rw [postc2.1, hinj]
            have hagc : ∀ q, underEqB o.currentPath q = true →
                lookupFS fsc q = lookupFS fs0 q :=
              agree_preserved o hsane fs0 fs fsc base hag postc2 hin
            exact copyPost_trans o fs0 base fs fsc r2.1 postc2
              (ihc fsc base rest r2 hinjc postc2.2.1 hagc hin hnorm hanc
                (fun it2 hmem => hvalid it2 (by simp [hmem])) h)


/-- No write of a walk rooted at the source root can land inside the
computed target of a filter-rejected directory `A`: every write chains
through filter-accepted paths only, and the basename-redirected shape
would force `A`'s parent to be a non-directory. -/
theorem copyWrite_not_under_rejected (o : COpts) (fs0 : FS) (hsane : saneC o)
    (hwf : wf fs0)
    (A : String) (nA : FNode) (hA : lookupFS fs0 A = some nA)
    (hAdir : nA.isDirectory = true)
    (hAin : underEqB o.currentPath A = true)
    (hAfil : o.filter A o.targetPath = false)
    (q : String) (hq : underEqB (targetOf o A) q = true)
    (hwrite : copyWrite o fs0 o.currentPath q) : False := by
  obtain ⟨s2, hs2in, hs2n, hchain, hshape⟩ := hwrite
  have hnotfil : ∀ h2 : underEqB A s2 = true, False := by
    intro h2
    have := hchain A hAin h2
    rw [hAfil] at this
    exact Bool.noConfusion this
  obtain ⟨XA, hAd, hXAb⟩ := underEqB_elim_suffix o.currentPath A hAin
  obtain ⟨X2, hs2d, hX2b⟩ := underEqB_elim_suffix o.currentPath s2 hs2in
  have htA : (targetOf o A).data = o.targetPath.data ++ XA := targetOf_data o hsane A XA hAd
  have hts : (targetOf o s2).data = o.targetPath.data ++ X2 := targetOf_data o hsane s2 X2 hs2d
  rcases hshape with hq1 | ⟨hq2, n2, hn2, hn2dir⟩
  · rcases (underEqB_iff (targetOf o A) q).mp hq with he | ⟨w, hw⟩
    · have hXX : XA = X2 := by
        have hmid : o.targetPath.data ++ XA = o.targetPath.data ++ X2 := by
          rw [← htA, ← hts, he, hq1]
        exact List.append_cancel_left hmid
      have hAs : A = s2 := String.ext (by rw [hAd, hs2d, hXX])
      exact hnotfil (by rw [hAs]; exact underEqB_refl s2)
    · have hX2e : X2 = XA ++ '/' :: w := by
        have hmid : o.targetPath.data ++ X2 = o.targetPath.data ++ (XA ++ '/' :: w) := by
          calc o.targetPath.data ++ X2 = (targetOf o s2).data := hts.symm
            _ = q.data := by rw [hq1]
            _ = (targetOf o A).data ++ '/' :: w := hw
            _ = o.targetPath.data ++ (XA ++ '/' :: w) := by rw [htA]; simp
        exact List.append_cancel_left hmid
      refine hnotfil ((underEqB_iff A s2).mpr (.inr ⟨w, ?_⟩))
      rw [hs2d, hX2e, hAd]
      simp
  · have hbn : validName (basename s2).data = true := basename_of_normal s2 hs2n
    have hqd : q.data = o.targetPath.data ++ (X2 ++ '/' :: (basename s2).data) := by
      rw [hq2, data_append_slash, hts]
      simp
    rcases (underEqB_iff (targetOf o A) q).mp hq with he | ⟨w, hw⟩
    · have hXA2 : XA = X2 ++ '/' :: (basename s2).data := by
        have hmid : o.targetPath.data ++ XA =
            o.targetPath.data ++ (X2 ++ '/' :: (basename s2).data) := by
          rw [← htA, he]
          exact hqd
        exact List.append_cancel_left hmid
      have hAeq : A = s2 ++ "/" ++ basename s2 := by
        apply String.ext
        rw [hAd, hXA2, data_append_slash, hs2d]
        simp
      have hdirA : dirname A = s2 := by
        rw [hAeq]
        exact dirname_append s2 _ hs2n hbn
      have hAroot : A ≠ "/" := by
        intro he2
        rw [he2, underEqB_root_false o.currentPath hsane.1] at hAin
        exact Bool.noConfusion hAin
      obtain ⟨-, hpar⟩ := wf_entry_normal fs0 hwf A nA (lookupFS_mem fs0 A nA hA) hAroot
      rw [hdirA] at hpar
      obtain ⟨m, hm, hmdir⟩ := option_any_elim _ hpar
      rw [hn2] at hm
      have hnm : n2 = m := by
        injection hm
      rw [← hnm] at hmdir
      rw [hmdir] at hn2dir
      exact Bool.noConfusion hn2dir
    · have hkey : X2 ++ '/' :: (basename s2).data = XA ++ '/' :: w := by
        have hmid : o.targetPath.data ++ (X2 ++ '/' :: (basename s2).data) =
            o.targetPath.data ++ (XA ++ '/' :: w) := by
          rw [← hqd, hw, htA]
          simp
        exact List.append_cancel_left hmid
      have hpXA : XA <+: (XA ++ '/' :: w) := ⟨'/' :: w, rfl⟩
      have hpX2 : X2 <+: (XA ++ '/' :: w) := ⟨'/' :: (basename s2).data, hkey⟩
      rcases List.prefix_or_prefix_of_prefix hpXA hpX2 with hAX2 | hX2A
      · obtain ⟨D, hD⟩ := hAX2
        cases D with
        | nil =>
          have hAs : A = s2 := String.ext (by rw [hAd, hs2d, ← hD]; simp)
          exact hnotfil (by rw [hAs]; exact underEqB_refl s2)
        | cons d D2 =>
          have h3 := hkey
          rw [← hD, List.append_assoc] at h3
          have h4 := List.append_cancel_left h3.symm
          rw [List.cons_append] at h4
          have hd : d = '/' := ((List.cons.injEq _ _ _ _).mp h4).1.symm
          refine hnotfil ((underEqB_iff A s2).mpr (.inr ⟨D2, ?_⟩))
          rw [hs2d, ← hD, hd, hAd]
          simp
      · obtain ⟨D, hD⟩ := hX2A
        cases D with
        | nil =>
          have hAs : A = s2 := String.ext (by rw [hAd, hs2d, ← hD]; simp)
          exact hnotfil (by rw [hAs]; exact underEqB_refl s2)
        | cons d D2 =>
          have h3 := hkey
          rw [← hD, List.append_assoc] at h3
          have h4 := List.append_cancel_left h3
          rw [List.cons_append] at h4
          have hbn2 : (basename s2).data = D2 ++ '/' :: w :=
            ((List.cons.injEq _ _ _ _).mp h4).2
          have hcontra : (basename s2).data.contains '/' = true := by
            rw [hbn2]
            simp
          rw [validName_no_slash _ hbn] at hcontra
          exact Bool.noConfusion hcontra


/-- C9: if the filter returns false for a visited entry, that entry's
branch terminates with no side effect (first conjunct: the very first
filter check short-circuits startCopy, returning the filesystem
unchanged and no error).  Under sane resolved roots (normalized,
mutually non-dominating, dollar-free destination, no dereferencing), a
filter-rejected subdirectory of the source root leaves the whole
destination subtree computed for it untouched — so it and all of its
descendants are absent from a destination that did not already hold
them (second conjunct, proved for every well-formed starting state and
every fuel).  The last two conjuncts run the copy engine on a concrete
tree `/src` holding files `f`, `g` and subdirectory `sub` with file
`h`: rejecting the single file `f` omits exactly `f` and still copies
its siblings `g`, `sub` and `sub/h`; rejecting `sub` omits `sub` and
its descendant `h` while still copying the sibling files. -/
theorem C9_filter_no_side_effect :
    (∀ (o : COpts) (n : Nat) (fs : FS) (p : String),
      o.filter p o.targetPath = false →
      copyStep o (n + 1) (.start fs p) = some (fs, none)) ∧
    (∀ (o : COpts) (fs0 : FS) (A : String) (nA : FNode) (n : Nat)
        (r2 : FS × Option Thrown),
      saneC o → wf fs0 → clean fs0 →
      underEqB o.currentPath A = true →
      lookupFS fs0 A = some nA → nA.isDirectory = true →
      o.filter A o.targetPath = false →
      copyStep o n (.start fs0 o.currentPath) = some r2 →
      ∀ q, underEqB (targetOf o A) q = true → lookupFS r2.1 q = lookupFS fs0 q) ∧
    ncp "/" 9 exFilterFS "/src" "/dst"
      ⟨some (fun p _ => p != "/src/f"), none, false, false, false⟩ =
      some (exFilterFS_noF, none) ∧
    ncp "/" 9 exFilterFS "/src" "/dst"
      ⟨some (fun p _ => p != "/src/sub"), none, false, false, false⟩ =
      some (exFilterFS_noSub, none) := by
  refine ⟨?_, ?_, by decide, by decide⟩
  · intro o n fs p hf
    simp only [copyStep]
    rw [if_pos hf]
  · intro o fs0 A nA n r2 hsane hwf hclean hAin hA hAdir hAfil hstep q hq
    have hkn0 : keysNormal fs0 := keysNormal_of_wf fs0 hwf
    have hanc : ∀ r3, underEqB o.currentPath r3 = true →
        underEqB r3 o.currentPath = true → r3 ≠ o.currentPath →
        o.filter r3 o.targetPath = true := by
      intro r3 h1 h2 hne
      exact absurd (underEqB_antisymm r3 o.currentPath h2 h1) hne
    have post := (copyStep_writes o hsane fs0 n).1 fs0 o.currentPath r2 hclean hkn0
      (fun _ _ => rfl) (underEqB_refl _) hsane.1 hanc hstep
    by_cases hch : lookupFS r2.1 q = lookupFS fs0 q
    · exact hch
    · exact absurd (post.2.2 q hch)
        (fun hwr => copyWrite_not_under_rejected o fs0 hsane hwf A nA hA hAdir hAin
          hAfil q hq hwr)

/-- Witness for C9: the first conjunct applied to the concrete filter
that rejects `/src/f` (rejected branch returns the tree unchanged with
no error), and the second applied to the concrete rejected
subdirectory `/src/sub` of the concrete copy, instantiated at the
would-be destination `/dst/sub/h`. -/
theorem C9_witness :
    copyStep oRejFile 4 (.start exFilterFS "/src/f") = some (exFilterFS, none) ∧
    lookupFS exFilterFS_noSub "/dst/sub/h" = lookupFS exFilterFS "/dst/sub/h" :=
  ⟨C9_filter_no_side_effect.1 oRejFile 3 exFilterFS "/src/f" (by decide),
   C9_filter_no_side_effect.2.1 oRejSub exFilterFS "/src/sub" dirNode 9
     (exFilterFS_noSub, none) (by decide) (by decide) (by decide) (by decide)
     (by decide) (by decide) (by decide) (by decide) "/dst/sub/h" (by decide)⟩


end FsNextra
